import Mathlib

/-!
Verification of the corn-maze decision engine and grid model.

This file gives a shallow embedding of the tiered decision engine of
`src/AIBrain.js` (the multi-block-per-tier variant) and of the carving
and path-finding logic of `src/index.js`, together with theorems about
the claims of the specification.

Modelling conventions:
* JS numbers used as grid coordinates are embedded as `Int`
  (all arithmetic involved is exact integer arithmetic).
* `Math.sqrt` is only used to compare Euclidean distances; since
  `Real.sqrt` is strictly monotone on nonnegative reals, comparisons of
  distances are embedded as comparisons of squared distances (`distSq`),
  which are exact integers.
* JS `Set`s of `"x,y"` keys are embedded as boolean membership
  functions on positions (the key encoding is injective on integers),
  JS `Map`s from `"x,y"` keys to counts as functions `Pos → Nat`
  (`Map.get(...) || 0` semantics).
* `Math.random()` results are an explicit input stream `rand : ℕ → ℚ`,
  consumed in call order; theorems that need it assume
  `0 ≤ rand n < 1`, which `Math.random` guarantees.
* Unbounded JS loops (BFS `while`, DFS recursion, parent-pointer path
  reconstruction) are embedded with an explicit fuel argument; a fuel
  bound sufficient for all executions is derived from the grid size and
  proved sufficient where theorems depend on it.
-/

set_option maxHeartbeats 1000000
set_option linter.unusedVariables false

namespace CornMaze

/-- The four movement directions of `AIBrain.js` (`'up'`, `'right'`,
`'down'`, `'left'`). -/
inductive Dir
  | up
  | right
  | down
  | left
deriving DecidableEq, Repr

/-- `oppositeDir` table from `decideNextMove`. -/
def oppositeDir : Dir → Dir
  | .up => .down
  | .down => .up
  | .left => .right
  | .right => .left

/-- An integer grid position `{x, y}`. -/
structure Pos where
  x : Int
  y : Int
deriving DecidableEq, Repr

/-- A candidate move: target coordinates plus the direction taken, as
built by `getPossibleMoves`. -/
structure Move where
  x : Int
  y : Int
  direction : Dir
deriving DecidableEq, Repr

/-- The maze surface: `width`, `height` and the cell matrix `grid`,
accessed as `grid[y][x]`; cell value `1` = plowed/open, `0` = corn. -/
structure Maze where
  width : Int
  height : Int
  grid : Int → Int → Int

/-- Direction deltas, as in the `directions` table of
`getPossibleMoves` (`up ↦ (0,-1)`, `right ↦ (1,0)`, `down ↦ (0,1)`,
`left ↦ (-1,0)`). -/
def dirDelta : Dir → Int × Int
  | .up => (0, -1)
  | .right => (1, 0)
  | .down => (0, 1)
  | .left => (-1, 0)

/-- `getPossibleMoves(pos, maze)`: all four directions tried in the
fixed order up, right, down, left; a move is kept iff the target is
in bounds and the cell is `1`. -/
def getPossibleMoves (pos : Pos) (maze : Maze) : List Move :=
  [Dir.up, Dir.right, Dir.down, Dir.left].filterMap (fun d =>
    let nx := pos.x + (dirDelta d).1
    let ny := pos.y + (dirDelta d).2
    if 0 ≤ nx ∧ nx < maze.width ∧ 0 ≤ ny ∧ ny < maze.height ∧ maze.grid ny nx = 1
    then some ⟨nx, ny, d⟩ else none)

/-- One other agent, as far as the decision logic reads it: position and
the lifecycle flags tested in `countPlayersInDirection`. -/
structure Player where
  position : Pos
  isActive : Bool
  isFinished : Bool
  isRemoved : Bool
deriving DecidableEq, Repr

/-- The kinds of rule blocks dispatched on in `isBlockApplicable` /
`executeBlock`; `unknownType` stands for any string not matched by a
`case` (the `default` branches). -/
inductive BlockType
  | wallFollowing
  | rightWall
  | lineOfSight
  | towardExit
  | checkMap
  | backtracking
  | social
  | randomGuesser
  | unknownType
deriving DecidableEq, Repr

/-- Block modes (`'left'`, `'right'`, `'avoid'`, `'seek'`, `'follow'`). -/
inductive BlockMode
  | left
  | right
  | avoid
  | seek
  | follow
deriving DecidableEq, Repr

/-- A rule block `{ type, weight, mode? }`; `mode = none` models an
absent `mode` property (the code then applies `block.mode || default`). -/
structure Block where
  type : BlockType
  weight : ℚ
  mode : Option BlockMode
deriving DecidableEq, Repr

/-- A priority tier `{ blocks: [...] }`. -/
structure Tier where
  blocks : List Block
deriving DecidableEq, Repr

/-- The read-only context threaded through `decideNextMove`: its
parameters `currentPos, visited, visitCounts, maze, start, finish,
lastDirection, allPlayers, currentPlayerIndex`. -/
structure Ctx where
  currentPos : Pos
  visited : Pos → Bool
  visitCounts : Pos → Nat
  maze : Maze
  start : Option Pos
  finish : Option Pos
  lastDirection : Option Dir
  allPlayers : List Player
  currentPlayerIndex : Nat

/-- Squared Euclidean distance from `(x, y)` to `finish` (the code
compares `Math.sqrt` of these; `sqrt` is strictly monotone, so all
comparisons are embedded on the squares). -/
def distSq (finish : Pos) (x y : Int) : Int :=
  (finish.x - x) * (finish.x - x) + (finish.y - y) * (finish.y - y)

/-- The result `{ moves, thought }` of a block's execute function. -/
structure ExecResult where
  moves : List Move
  thought : Option String
deriving DecidableEq, Repr

/-- The result `{ move, thought }` of `decideNextMove`. -/
structure DecideResult where
  move : Option Move
  thought : Option String
deriving DecidableEq, Repr

def diceEmote : String := "🎲"

def wallRightEmote : String := "→"

def wallLeftEmote : String := "←"

def insightEmote : String := "❗"

def compassEmote : String := "🧭"

def mapEmote : String := "🗺️"

def brainEmote : String := "🧠"

def questionEmote : String := "❓"

def heartEmote : String := "❤️"

def shyEmote : String := "🫣"

/-- `rightPriority` table of `scoreWallFollowing`. -/
def rightPriority : Dir → List Dir
  | .up => [.right, .up, .left, .down]
  | .right => [.down, .right, .up, .left]
  | .down => [.left, .down, .right, .up]
  | .left => [.up, .left, .down, .right]

/-- `leftPriority` table of `scoreWallFollowing`. -/
def leftPriority : Dir → List Dir
  | .up => [.left, .up, .right, .down]
  | .right => [.up, .right, .down, .left]
  | .down => [.right, .down, .left, .up]
  | .left => [.down, .left, .up, .right]

/-- `scoreWallFollowing(currentPos, move, lastDirection, mode)`:
`4 - index` of the move's direction in the priority list for the last
direction (`0` with no last direction; `indexOf` can not miss since the
lists enumerate all four directions). -/
def scoreWallFollowing (currentPos : Option Pos) (move : Move)
    (lastDirection : Option Dir) (mode : BlockMode) : Int :=
  match lastDirection with
  | none => 0
  | some ld =>
    let order := if mode = BlockMode.left then leftPriority ld else rightPriority ld
    match order.findIdx? (fun d => d = move.direction) with
    | some i => 4 - (i : Int)
    | none => 0

/-- `wallFollowingLogic(possibleMoves, lastDirection, mode)`: score each
move, keep those with the maximal score, emote by mode. -/
def wallFollowingLogic (possibleMoves : List Move) (lastDirection : Option Dir)
    (mode : BlockMode) : ExecResult :=
  let scoredMoves := possibleMoves.map (fun m =>
    (m, scoreWallFollowing none m lastDirection mode))
  let maxScore := (scoredMoves.map Prod.snd).max?.getD 0
  let bestMoves := (scoredMoves.filter (fun sm => sm.2 = maxScore)).map Prod.fst
  ⟨bestMoves, some (if mode = BlockMode.left then wallLeftEmote else wallRightEmote)⟩

/-- `rightWallLogic` (legacy): wall following with mode `'right'`. -/
def rightWallLogic (possibleMoves : List Move) (lastDirection : Option Dir) : ExecResult :=
  wallFollowingLogic possibleMoves lastDirection BlockMode.right

/-- The integer range `[a, b)`, as traversed by a JS loop
`for (let i = a; i < b; i++)`. -/
def intRange (a b : Int) : List Int :=
  (List.range (b - a).toNat).map (fun i : ℕ => a + (i : Int))

/-- `isFinishVisible(currentPos, finish, maze)`: the finish is on the
same row or column and every strictly-between cell is open. -/
def isFinishVisible (currentPos : Pos) (finish : Option Pos) (maze : Maze) : Bool :=
  match finish with
  | none => false
  | some f =>
    if currentPos.x = f.x then
      (intRange (min currentPos.y f.y + 1) (max currentPos.y f.y)).all
        (fun y => maze.grid y currentPos.x == 1)
    else if currentPos.y = f.y then
      (intRange (min currentPos.x f.x + 1) (max currentPos.x f.x)).all
        (fun x => maze.grid currentPos.y x == 1)
    else false

/-- The scanning loop of `distanceToUncharted`: walk up to `fuel` cells
from `(cx, cy)` in direction `(dx, dy)`; stop with `0` when leaving the
grid or hitting corn, return the current distance at the first
unvisited open cell. -/
def distanceToUnchartedAux (maze : Maze) (visited : Pos → Bool) (dx dy : Int) :
    ℕ → Int → Int → ℕ → ℕ
  | 0, _, _, _ => 0
  | fuel + 1, cx, cy, dist =>
    if cx < 0 ∨ maze.width ≤ cx ∨ cy < 0 ∨ maze.height ≤ cy then 0
    else if maze.grid cy cx ≠ 1 then 0
    else if visited ⟨cx, cy⟩ = false then dist
    else distanceToUnchartedAux maze visited dx dy fuel (cx + dx) (cy + dy) (dist + 1)

/-- `distanceToUncharted(move, currentPos, maze, visited)`: straight-line
distance (1-5) to the first unvisited open cell in the move's direction,
`0` if none within 5 cells. -/
def distanceToUncharted (move : Move) (currentPos : Pos) (maze : Maze)
    (visited : Pos → Bool) : ℕ :=
  let d := dirDelta move.direction
  distanceToUnchartedAux maze visited d.1 d.2 5 (currentPos.x + d.1) (currentPos.y + d.2) 1

/-- `hasUnchartedTerritory`: some candidate move sees unvisited
territory. -/
def hasUnchartedTerritory (currentPos : Pos) (maze : Maze) (visited : Pos → Bool)
    (possibleMoves : List Move) : Bool :=
  possibleMoves.any (fun m => 0 < distanceToUncharted m currentPos maze visited)

/-- `lineOfSightLogic`: head toward a visible finish, else toward the
nearest uncharted territory, else keep all moves. -/
def lineOfSightLogic (possibleMoves : List Move) (currentPos : Pos)
    (finish : Option Pos) (maze : Maze) (visited : Pos → Bool) : ExecResult :=
  let towardVisibleFinish : Option ExecResult :=
    match finish with
    | none => none
    | some f =>
      if isFinishVisible currentPos (some f) maze then
        let towardFinish := possibleMoves.filter (fun m =>
          (m.direction = Dir.up ∧ f.y < currentPos.y) ∨
          (m.direction = Dir.down ∧ currentPos.y < f.y) ∨
          (m.direction = Dir.left ∧ f.x < currentPos.x) ∨
          (m.direction = Dir.right ∧ currentPos.x < f.x))
        if 0 < towardFinish.length then some ⟨towardFinish, some insightEmote⟩ else none
      else none
  match towardVisibleFinish with
  | some r => r
  | none =>
    let movesWithDistance := (possibleMoves.map (fun m =>
      (m, distanceToUncharted m currentPos maze visited))).filter (fun md => 0 < md.2)
    if 0 < movesWithDistance.length then
      let bestDistance := (movesWithDistance.map Prod.snd).min?.getD 0
      ⟨(movesWithDistance.filter (fun md => md.2 = bestDistance)).map Prod.fst,
        some insightEmote⟩
    else ⟨possibleMoves, none⟩

/-- `towardExitLogic(possibleMoves, currentPos, finish)`: among the
moves strictly closer to the finish, keep those at minimal distance. -/
def towardExitLogic (possibleMoves : List Move) (currentPos : Pos)
    (finish : Option Pos) : ExecResult :=
  match finish with
  | none => ⟨possibleMoves, none⟩
  | some f =>
    let currentDistance := distSq f currentPos.x currentPos.y
    let closerMoves := possibleMoves.filter (fun m => distSq f m.x m.y < currentDistance)
    if closerMoves.isEmpty then ⟨possibleMoves, none⟩
    else
      let minDistance := (closerMoves.map (fun m => distSq f m.x m.y)).min?.getD 0
      ⟨closerMoves.filter (fun m => distSq f m.x m.y = minDistance), some compassEmote⟩

/-- `backtrackingLogic(possibleMoves, visited, visitCounts, mode)`:
keep the moves with minimal (`'avoid'`) or maximal (`'seek'`) visit
count. -/
def backtrackingLogic (possibleMoves : List Move) (visited : Pos → Bool)
    (visitCounts : Pos → Nat) (mode : BlockMode) : ExecResult :=
  let movesWithCounts := possibleMoves.map (fun m => (m, visitCounts ⟨m.x, m.y⟩))
  if mode = BlockMode.avoid then
    let minCount := (movesWithCounts.map Prod.snd).min?.getD 0
    ⟨(movesWithCounts.filter (fun mc => mc.2 = minCount)).map Prod.fst, some brainEmote⟩
  else
    let maxCount := (movesWithCounts.map Prod.snd).max?.getD 0
    ⟨(movesWithCounts.filter (fun mc => mc.2 = maxCount)).map Prod.fst, some questionEmote⟩

/-- The indexed player test of `countPlayersInDirection`: players other
than `currentPlayerIndex` that are active, unfinished, not removed, and
stand at `(cx, cy)`. -/
def countPlayersAt (allPlayers : List Player) (currentPlayerIndex : Nat)
    (cx cy : Int) : ℕ :=
  (allPlayers.enum.filter (fun ip =>
    ip.1 ≠ currentPlayerIndex ∧ ip.2.isActive = true ∧ ip.2.isFinished = false ∧
    ip.2.isRemoved = false ∧ ip.2.position.x = cx ∧ ip.2.position.y = cy)).length

/-- The scanning loop of `countPlayersInDirection`: walk up to `fuel`
cells, stopping at the grid edge or at corn, accumulating visible
players. -/
def countPlayersInDirectionAux (maze : Maze) (allPlayers : List Player)
    (currentPlayerIndex : Nat) (dx dy : Int) :
    ℕ → Int → Int → ℕ → ℕ
  | 0, _, _, acc => acc
  | fuel + 1, cx, cy, acc =>
    if cx < 0 ∨ maze.width ≤ cx ∨ cy < 0 ∨ maze.height ≤ cy then acc
    else if maze.grid cy cx ≠ 1 then acc
    else countPlayersInDirectionAux maze allPlayers currentPlayerIndex dx dy fuel
      (cx + dx) (cy + dy) (acc + countPlayersAt allPlayers currentPlayerIndex cx cy)

/-- `countPlayersInDirection(move, currentPos, maze, allPlayers,
currentPlayerIndex)`: players visible within 7 cells along the move's
direction (0 if there is at most one player in total). -/
def countPlayersInDirection (move : Move) (currentPos : Pos) (maze : Maze)
    (allPlayers : List Player) (currentPlayerIndex : Nat) : ℕ :=
  if allPlayers.length ≤ 1 then 0
  else
    let d := dirDelta move.direction
    countPlayersInDirectionAux maze allPlayers currentPlayerIndex d.1 d.2 7
      (currentPos.x + d.1) (currentPos.y + d.2) 0

/-- `hasVisiblePlayers`: some candidate direction has a visible player. -/
def hasVisiblePlayers (currentPos : Pos) (maze : Maze) (allPlayers : List Player)
    (currentPlayerIndex : Nat) (possibleMoves : List Move) : Bool :=
  possibleMoves.any (fun m =>
    0 < countPlayersInDirection m currentPos maze allPlayers currentPlayerIndex)

/-- `socialLogic`: score each move by the count of visible players
(negated for `'avoid'`), keep the maximal-score moves. -/
def socialLogic (possibleMoves : List Move) (currentPos : Pos) (maze : Maze)
    (allPlayers : List Player) (currentPlayerIndex : Nat) (mode : BlockMode) : ExecResult :=
  let scoredMoves := possibleMoves.map (fun m =>
    let c : Int := countPlayersInDirection m currentPos maze allPlayers currentPlayerIndex
    (m, if mode = BlockMode.follow then c else -c))
  let maxScore := (scoredMoves.map Prod.snd).max?.getD 0
  let bestMoves := (scoredMoves.filter (fun sm => sm.2 = maxScore)).map Prod.fst
  ⟨bestMoves, some (if mode = BlockMode.follow then heartEmote else shyEmote)⟩

/-- `randomGuesser(possibleMoves)`: all moves unchanged, dice emote. -/
def randomGuesser (possibleMoves : List Move) : ExecResult :=
  ⟨possibleMoves, some diceEmote⟩

/-! ### Breadth-first shortest path (`findShortestPath`, identical in
`AIBrain.js` and `index.js`) -/

/-- Neighbor offsets in BFS/DFS expansion order `[[0,1],[1,0],[0,-1],[-1,0]]`
(the pair is `(dx, dy)`). -/
def neighborDirs : List (Int × Int) := [(0, 1), (1, 0), (0, -1), (-1, 0)]

/-- Number of grid cells, used only to bound the embedded loop fuel. -/
def cellCount (m : Maze) : ℕ := m.width.toNat * m.height.toNat

/-- BFS working state: the queue, the visited set (as the insertion-order
list of a JS `Set`) and the parent map. -/
structure BfsState where
  queue : List Pos
  visited : List Pos
  parent : Pos → Option Pos

/-- One step of the neighbor loop of the BFS: if the neighbor `c + d` is
in bounds, open and unvisited, mark it visited, record its parent `c`
and enqueue it. -/
def bfsExpand (maze : Maze) (c : Pos) (st : BfsState) (d : Int × Int) : BfsState :=
  let n : Pos := ⟨c.x + d.1, c.y + d.2⟩
  if 0 ≤ n.x ∧ n.x < maze.width ∧ 0 ≤ n.y ∧ n.y < maze.height ∧
      maze.grid n.y n.x = 1 ∧ ¬ n ∈ st.visited then
    ⟨st.queue ++ [n], st.visited ++ [n], fun p => if p = n then some c else st.parent p⟩
  else st

/-- The path-reconstruction loop (`while (current) { path.unshift(...);
current = parent.get(current) }`), with fuel for the unbounded `while`. -/
def reconstructAux (parent : Pos → Option Pos) : ℕ → Pos → List Pos → List Pos
  | 0, _, acc => acc
  | fuel + 1, cur, acc =>
    match parent cur with
    | none => cur :: acc
    | some p => reconstructAux parent fuel p (cur :: acc)

/-- The BFS `while (queue.length > 0)` loop. `none` means the fuel ran
out (shown impossible for the fuel used by `findShortestPath`);
`some none` is the JS `return null`, `some (some path)` a found path. -/
def bfsLoop (maze : Maze) (finish : Pos) : ℕ → BfsState → Option (Option (List Pos))
  | 0, _ => none
  | fuel + 1, st =>
    match h : st.queue with
    | [] => some none
    | c :: rest =>
      if c = finish then
        some (some (reconstructAux st.parent (st.visited.length + 1) c []))
      else
        bfsLoop maze finish fuel
          (neighborDirs.foldl (bfsExpand maze c) ⟨rest, st.visited, st.parent⟩)

/-- Fuel sufficient for the whole BFS (proved sufficient below). -/
def bfsFuel (m : Maze) : ℕ := 2 * cellCount m + 4

/-- `findShortestPath(start, finish, maze)`: BFS from `start` over open
cells, reconstructing the path through the parent map. -/
def findShortestPath (start finish : Pos) (maze : Maze) : Option (List Pos) :=
  (bfsLoop maze finish (bfsFuel maze)
    ⟨[start], [start], fun _ => none⟩).getD none

/-- `checkMapLogic(possibleMoves, currentPos, finish, maze)`: keep the
moves matching the second cell of the BFS shortest path. -/
def checkMapLogic (possibleMoves : List Move) (currentPos : Pos)
    (finish : Option Pos) (maze : Maze) : ExecResult :=
  match finish with
  | none => ⟨possibleMoves, none⟩
  | some f =>
    match findShortestPath currentPos f maze with
    | none => ⟨possibleMoves, none⟩
    | some shortestPath =>
      if shortestPath.length ≤ 1 then ⟨possibleMoves, none⟩
      else
        match shortestPath.get? 1 with
        | none => ⟨possibleMoves, none⟩
        | some nextStep =>
          let bestMoves := possibleMoves.filter (fun m =>
            m.x = nextStep.x ∧ m.y = nextStep.y)
          if 0 < bestMoves.length then ⟨bestMoves, some mapEmote⟩
          else ⟨possibleMoves, none⟩

/-! ### Exhaustive longest path (`findLongestPath` of `index.js`) -/

/-- The recursive `dfs(x, y, path)` of `findLongestPath`: at the finish,
record the current path; otherwise try the four neighbors that are in
bounds, open and unvisited.  The JS version mutates `path`/`visited`
with push/add before the recursive descent and pop/delete after it,
which restores them exactly, so passing extended copies is equivalent.
Recursion depth is bounded by the number of cells (fuel). -/
def dfsAux (maze : Maze) (finish : Pos) :
    ℕ → Int → Int → List Pos → List Pos → List (List Pos)
  | 0, _, _, _, _ => []
  | fuel + 1, x, y, path, visited =>
    if x = finish.x ∧ y = finish.y then [path]
    else
      neighborDirs.foldl (fun acc d =>
        let nx := x + d.1
        let ny := y + d.2
        acc ++
          (if 0 ≤ nx ∧ nx < maze.width ∧ 0 ≤ ny ∧ ny < maze.height ∧
              maze.grid ny nx = 1 ∧ ¬ (⟨nx, ny⟩ : Pos) ∈ visited then
            dfsAux maze finish fuel nx ny (path ++ [⟨nx, ny⟩]) (visited ++ [⟨nx, ny⟩])
          else [])) []

/-- Fuel sufficient for the DFS recursion depth. -/
def dfsFuel (m : Maze) : ℕ := cellCount m + 1

/-- `findLongestPath()`: enumerate all simple open paths from `start`
to `finish`, return the longest (the first one of maximal length, per
the JS `reduce`). -/
def findLongestPath (start finish : Pos) (maze : Maze) : Option (List Pos) :=
  let allPaths := dfsAux maze finish (dfsFuel maze) start.x start.y [start] [start]
  match allPaths with
  | [] => none
  | p :: rest =>
    some (rest.foldl (fun longest current =>
      if longest.length < current.length then current else longest) p)

/-! ### The tiered decision engine (`decideNextMove` of `AIBrain.js`) -/

/-- `isBlockApplicable(block, ...)`: the applicability predicate of each
block kind (the `default` branch returns `false`). -/
def isBlockApplicable (block : Block) (ctx : Ctx) (possibleMoves : List Move) : Bool :=
  match block.type with
  | .wallFollowing | .rightWall => ctx.lastDirection ≠ none
  | .lineOfSight =>
    isFinishVisible ctx.currentPos ctx.finish ctx.maze ||
      hasUnchartedTerritory ctx.currentPos ctx.maze ctx.visited possibleMoves
  | .towardExit =>
    match ctx.finish with
    | none => false
    | some f =>
      let currentDistance := distSq f ctx.currentPos.x ctx.currentPos.y
      let closerMoves := possibleMoves.filter (fun m => distSq f m.x m.y < currentDistance)
      if closerMoves.isEmpty then false
      else
        let distances := closerMoves.map (fun m => distSq f m.x m.y)
        decide (distances.min?.getD 0 < distances.max?.getD 0) ||
          decide (closerMoves.length = 1)
  | .checkMap =>
    match ctx.finish with
    | none => false
    | some f =>
      match findShortestPath ctx.currentPos f ctx.maze with
      | none => false
      | some shortestPath => decide (1 < shortestPath.length)
  | .backtracking =>
    let counts := possibleMoves.map (fun m => ctx.visitCounts ⟨m.x, m.y⟩)
    decide (counts.min?.getD 0 < counts.max?.getD 0)
  | .social =>
    hasVisiblePlayers ctx.currentPos ctx.maze ctx.allPlayers ctx.currentPlayerIndex
      possibleMoves
  | .randomGuesser => true
  | .unknownType => false

/-- `executeBlock(block, ...)`: dispatch to the block's logic (the
`default` branch behaves like `randomGuesser`). -/
def executeBlock (block : Block) (ctx : Ctx) (possibleMoves : List Move) : ExecResult :=
  match block.type with
  | .wallFollowing =>
    wallFollowingLogic possibleMoves ctx.lastDirection (block.mode.getD BlockMode.right)
  | .rightWall => rightWallLogic possibleMoves ctx.lastDirection
  | .lineOfSight =>
    lineOfSightLogic possibleMoves ctx.currentPos ctx.finish ctx.maze ctx.visited
  | .towardExit => towardExitLogic possibleMoves ctx.currentPos ctx.finish
  | .checkMap => checkMapLogic possibleMoves ctx.currentPos ctx.finish ctx.maze
  | .backtracking =>
    backtrackingLogic possibleMoves ctx.visited ctx.visitCounts
      (block.mode.getD BlockMode.avoid)
  | .social =>
    socialLogic possibleMoves ctx.currentPos ctx.maze ctx.allPlayers
      ctx.currentPlayerIndex (block.mode.getD BlockMode.follow)
  | .randomGuesser => randomGuesser possibleMoves
  | .unknownType => randomGuesser possibleMoves

/-- The weighted draw of a tier: `random -= block.weight; if (random <= 0)
select the block`, over the applicable blocks in order. -/
def selectBlock : List Block → ℚ → Option Block
  | [], _ => none
  | b :: rest, random =>
    let r := random - b.weight
    if r ≤ 0 then some b else selectBlock rest r

/-- The applicable blocks of a tier against the current candidate set. -/
def applicableBlocks (tier : Tier) (ctx : Ctx) (currentMoves : List Move) : List Block :=
  tier.blocks.filter (fun block => isBlockApplicable block ctx currentMoves)

/-- `combineEmotes(emotes)`: one emote stands alone; with several, the
dice emote is dropped unless it is all there is. -/
def combineEmotes : List String → Option String
  | [] => none
  | [e] => some e
  | e0 :: e1 :: rest =>
    let filtered := (e0 :: e1 :: rest).filter (fun e => e ≠ diceEmote)
    if 0 < filtered.length then some (String.join filtered) else some e0

/-- The post-tier uniform pick:
`currentMoves[Math.floor(Math.random() * currentMoves.length)]`, with
the dice emote attached when no block fired. -/
def finalPick (rand : ℕ → ℚ) (currentMoves : List Move) (emotes : List String)
    (k : ℕ) : DecideResult :=
  let finalMove := currentMoves.get? (⌊rand k * (currentMoves.length : ℚ)⌋).toNat
  let emotes2 := if emotes.isEmpty then [diceEmote] else emotes
  ⟨finalMove, combineEmotes emotes2⟩

/-- The `for (tierIndex ...)` loop of `decideNextMove`.  `k` counts the
`Math.random()` draws made so far (`rand k` is the next draw). -/
def tierLoop (ctx : Ctx) (rand : ℕ → ℚ) :
    List Tier → List Move → List String → ℕ → DecideResult
  | [], currentMoves, emotes, k => finalPick rand currentMoves emotes k
  | tier :: rest, currentMoves, emotes, k =>
    if tier.blocks.isEmpty then tierLoop ctx rand rest currentMoves emotes k
    else
      let applicable := applicableBlocks tier ctx currentMoves
      if applicable.isEmpty then tierLoop ctx rand rest currentMoves emotes k
      else
        let totalWeight := (applicable.map Block.weight).sum
        let random := rand k * totalWeight
        match selectBlock applicable random with
        | none => tierLoop ctx rand rest currentMoves emotes (k + 1)
        | some selectedBlock =>
          let result := executeBlock selectedBlock ctx currentMoves
          if 0 < result.moves.length then
            let emotes2 := emotes ++ result.thought.toList
            if result.moves.length = 1 then
              ⟨result.moves.head?, combineEmotes emotes2⟩
            else tierLoop ctx rand rest result.moves emotes2 (k + 1)
          else tierLoop ctx rand rest currentMoves emotes (k + 1)

/-- The anti-reversal narrowing of `decideNextMove`: with a last
direction, drop the reverse-direction move unless no forward move would
remain. -/
def narrowedMoves (ctx : Ctx) : List Move :=
  let possibleMoves := getPossibleMoves ctx.currentPos ctx.maze
  match ctx.lastDirection with
  | none => possibleMoves
  | some lastDirection =>
    let backwardDir := oppositeDir lastDirection
    let forwardMoves := possibleMoves.filter (fun m => m.direction ≠ backwardDir)
    if 0 < forwardMoves.length then forwardMoves else possibleMoves

/-- `decideNextMove`: stuck with no legal move; anti-reversal filter;
immediate return of a forced move; otherwise the tier loop. -/
def decideNextMove (tiers : List Tier) (ctx : Ctx) (rand : ℕ → ℚ) : DecideResult :=
  if (getPossibleMoves ctx.currentPos ctx.maze).isEmpty then ⟨none, none⟩
  else
    if (narrowedMoves ctx).length = 1 then ⟨(narrowedMoves ctx).head?, none⟩
    else tierLoop ctx rand tiers (narrowedMoves ctx) [] 0

/-! ### State-threaded rendering of the engine

`decideNextMove` receives references to the grid, the visited set, the
visit counts, the tier configuration and the player list, all of which
JS code could mutate.  To express the frame property, the engine is
rendered once more with the mutable environment threaded explicitly:
every operation returns the environment it leaves behind.  Each case of
`executeBlockW` returns the environment it received because the
corresponding source block contains no assignment to any of these
objects. -/

/-- The mutable environment visible to `decideNextMove`: the tier
configuration plus every object reachable through its parameters. -/
structure World where
  tiers : List Tier
  ctx : Ctx

/-- `executeBlock`, threading the mutable environment. -/
def executeBlockW (block : Block) (w : World) (possibleMoves : List Move) :
    ExecResult × World :=
  match block.type with
  | .wallFollowing =>
    (wallFollowingLogic possibleMoves w.ctx.lastDirection
      (block.mode.getD BlockMode.right), w)
  | .rightWall => (rightWallLogic possibleMoves w.ctx.lastDirection, w)
  | .lineOfSight =>
    (lineOfSightLogic possibleMoves w.ctx.currentPos w.ctx.finish w.ctx.maze
      w.ctx.visited, w)
  | .towardExit => (towardExitLogic possibleMoves w.ctx.currentPos w.ctx.finish, w)
  | .checkMap =>
    (checkMapLogic possibleMoves w.ctx.currentPos w.ctx.finish w.ctx.maze, w)
  | .backtracking =>
    (backtrackingLogic possibleMoves w.ctx.visited w.ctx.visitCounts
      (block.mode.getD BlockMode.avoid), w)
  | .social =>
    (socialLogic possibleMoves w.ctx.currentPos w.ctx.maze w.ctx.allPlayers
      w.ctx.currentPlayerIndex (block.mode.getD BlockMode.follow), w)
  | .randomGuesser => (randomGuesser possibleMoves, w)
  | .unknownType => (randomGuesser possibleMoves, w)

/-- The tier loop, threading the mutable environment; `i` is the JS
`tierIndex` and every read (`this.tiers[i]`, the applicability checks)
goes through the current environment.  The fuel is the tier count at
entry. -/
def tierLoopW (rand : ℕ → ℚ) :
    ℕ → ℕ → World → List Move → List String → ℕ → DecideResult × World
  | 0, _, w, currentMoves, emotes, k => (finalPick rand currentMoves emotes k, w)
  | fuel + 1, i, w, currentMoves, emotes, k =>
    match w.tiers.get? i with
    | none => (finalPick rand currentMoves emotes k, w)
    | some tier =>
      if tier.blocks.isEmpty then tierLoopW rand fuel (i + 1) w currentMoves emotes k
      else
        let applicable := applicableBlocks tier w.ctx currentMoves
        if applicable.isEmpty then tierLoopW rand fuel (i + 1) w currentMoves emotes k
        else
          let totalWeight := (applicable.map Block.weight).sum
          let random := rand k * totalWeight
          match selectBlock applicable random with
          | none => tierLoopW rand fuel (i + 1) w currentMoves emotes (k + 1)
          | some selectedBlock =>
            let rw := executeBlockW selectedBlock w currentMoves
            if 0 < rw.1.moves.length then
              let emotes2 := emotes ++ rw.1.thought.toList
              if rw.1.moves.length = 1 then
                (⟨rw.1.moves.head?, combineEmotes emotes2⟩, rw.2)
              else tierLoopW rand fuel (i + 1) rw.2 rw.1.moves emotes2 (k + 1)
            else tierLoopW rand fuel (i + 1) rw.2 currentMoves emotes (k + 1)

/-- `decideNextMove`, threading the mutable environment. -/
def decideNextMoveW (w : World) (rand : ℕ → ℚ) : DecideResult × World :=
  if (getPossibleMoves w.ctx.currentPos w.ctx.maze).isEmpty then (⟨none, none⟩, w)
  else
    if (narrowedMoves w.ctx).length = 1 then (⟨(narrowedMoves w.ctx).head?, none⟩, w)
    else tierLoopW rand w.tiers.length 0 w (narrowedMoves w.ctx) [] 0

/-! ### The grid model of `index.js`: perimeter and 2x2 carving checks -/

/-- `isOnPerimeter(x, y)`. -/
def isOnPerimeter (m : Maze) (x y : Int) : Bool :=
  x == 0 || x == m.width - 1 || y == 0 || y == m.height - 1

/-- All cells of the grid in row-major order (the nested
`for (y) for (x)` loops). -/
def cellList (m : Maze) : List (Int × Int) :=
  (intRange 0 m.height).flatMap (fun y => (intRange 0 m.width).map (fun x => (x, y)))

/-- `countPlowedPerimeterSquares()`. -/
def countPlowedPerimeterSquares (m : Maze) : ℕ :=
  (cellList m).countP (fun c => isOnPerimeter m c.1 c.2 && m.grid c.2 c.1 == 1)

/-- `check2x2Block(x1, y1, x2, y2)` of `canPlow` at candidate cell
`(x, y)`: an out-of-bounds 2x2 block never constrains; an in-bounds one
must not have all four cells plowed once `(x, y)` is counted as
plowed. -/
def check2x2Block (m : Maze) (x y x1 y1 x2 y2 : Int) : Bool :=
  if x1 < 0 ∨ y1 < 0 ∨ m.width ≤ x2 ∨ m.height ≤ y2 then true
  else
    let plowedCount := ((intRange y1 (y2 + 1)).flatMap (fun checkY =>
      (intRange x1 (x2 + 1)).map (fun checkX => (checkX, checkY)))).countP
      (fun c => m.grid c.2 c.1 == 1 || (c.1 == x && c.2 == y))
    decide (plowedCount < 4)

/-- `canPlow(x, y)`: already-open cells are legal; a new perimeter cell
is rejected once two perimeter cells are open; otherwise all four 2x2
blocks containing `(x, y)` are checked. -/
def canPlow (m : Maze) (x y : Int) : Bool :=
  if m.grid y x == 1 then true
  else if isOnPerimeter m x y && decide (2 ≤ countPlowedPerimeterSquares m) then false
  else
    check2x2Block m x y (x - 1) (y - 1) x y &&
    check2x2Block m x y x (y - 1) (x + 1) y &&
    check2x2Block m x y (x - 1) y x (y + 1) &&
    check2x2Block m x y x y (x + 1) (y + 1)

/-- The carve itself (`this.grid[newY][newX] = 1`). -/
def plow (m : Maze) (x y : Int) : Maze :=
  { m with grid := fun b a => if b = y ∧ a = x then 1 else m.grid b a }

/-- One guarded carve of `handleMovement`: the target cell is clamped
into bounds and the carve happens only when `canPlow` approves. -/
def carveStep (m : Maze) (c : Int × Int) : Maze :=
  if 0 ≤ c.1 ∧ c.1 < m.width ∧ 0 ≤ c.2 ∧ c.2 < m.height ∧ canPlow m c.1 c.2 = true
  then plow m c.1 c.2 else m

/-- A sequence of guarded carves. -/
def carveSeq (m : Maze) : List (Int × Int) → Maze
  | [] => m
  | c :: rest => carveSeq (carveStep m c) rest

/-- The initial grid of the game: all corn except the tractor start cell
`(⌊width/2⌋, ⌊height/2⌋)`. -/
def initialMaze (w h : Int) : Maze :=
  { width := w, height := h,
    grid := fun b a => if b = h / 2 ∧ a = w / 2 then 1 else 0 }

/-- No in-bounds 2x2 block of cells is fully open. -/
def No2x2Open (m : Maze) : Prop :=
  ∀ a b : Int, 0 ≤ a → a + 1 < m.width → 0 ≤ b → b + 1 < m.height →
    ¬ (m.grid b a = 1 ∧ m.grid b (a + 1) = 1 ∧
       m.grid (b + 1) a = 1 ∧ m.grid (b + 1) (a + 1) = 1)

/-- At most two perimeter cells are open. -/
def PerimeterOK (m : Maze) : Prop := countPlowedPerimeterSquares m ≤ 2

/-! ### Specification-level path predicates -/

/-- `p` is inside the grid. -/
def inB (m : Maze) (p : Pos) : Prop :=
  0 ≤ p.x ∧ p.x < m.width ∧ 0 ≤ p.y ∧ p.y < m.height

/-- `p` is an in-bounds open cell. -/
def openCell (m : Maze) (p : Pos) : Prop := inB m p ∧ m.grid p.y p.x = 1

/-- One 4-connected step into an in-bounds open cell — exactly the cells
the BFS/DFS neighbor loops will step into. -/
def adjStep (m : Maze) (a b : Pos) : Prop :=
  openCell m b ∧ ∃ d ∈ neighborDirs, b.x = a.x + d.1 ∧ b.y = a.y + d.2

/-- `f` is reachable from `s` by 4-connected steps over open cells. -/
def Reaches (m : Maze) (s f : Pos) : Prop := Relation.ReflTransGen (adjStep m) s f

/-- `l` is a 4-connected open-cell path from `s` to `f` (every cell of
`l` open: the head by the last conjunct, the rest as step targets). -/
def IsOpenPath (m : Maze) (s f : Pos) (l : List Pos) : Prop :=
  l ≠ [] ∧ l.head? = some s ∧ l.getLast? = some f ∧ l.Chain' (adjStep m) ∧ openCell m s

/-- Loop-fuel measure of a BFS state (strictly decreases each
iteration). -/
def bfsMeasure (m : Maze) (st : BfsState) : ℕ :=
  2 * (cellCount m + 1 - st.visited.length) + st.queue.length

/-- The invariant the BFS state maintains while searching from `s` for
`f` on `m`:
* the visited list has no duplicates, contains `s`, and all its other
  elements are open cells;
* the queue holds visited cells;
* the parent map records, for each non-start visited cell, an adjacent
  open predecessor visited strictly earlier;
* every visited cell is still queued or has all its open neighbors
  visited;
* the finish, once visited, stays queued until the loop pops it and
  returns. -/
structure BfsInv (m : Maze) (s f : Pos) (st : BfsState) : Prop where
  nodup : st.visited.Nodup
  qsub : ∀ p ∈ st.queue, p ∈ st.visited
  svis : s ∈ st.visited
  vin : ∀ p ∈ st.visited, p = s ∨ openCell m p
  pspec : ∀ p q, st.parent p = some q → adjStep m q p ∧
    ∃ i j, i < j ∧ st.visited.get? i = some q ∧ st.visited.get? j = some p
  pdom : ∀ p ∈ st.visited, p ≠ s → st.parent p ≠ none
  processed : ∀ p ∈ st.visited, p ∈ st.queue ∨ ∀ q, adjStep m p q → q ∈ st.visited
  fqueue : f ∈ st.visited → f ∈ st.queue

/-- The `rightTurns` table of `getTurnType` (the direction reached by a
right turn). -/
def rightTurns : Dir → Dir
  | .up => .right
  | .right => .down
  | .down => .left
  | .left => .up

/-- The `leftTurns` table of `getTurnType` (the direction reached by a
left turn). -/
def leftTurns : Dir → Dir
  | .up => .left
  | .left => .down
  | .down => .right
  | .right => .up

/-! ### Concrete configurations used by counterexamples and witnesses -/

/-- A 3x3 grid open at (1,1), (1,0), (0,1), (2,1): a T-junction. -/
def m3 : Maze :=
  { width := 3, height := 3,
    grid := fun b a =>
      if (b = 1 ∧ a = 1) ∨ (b = 0 ∧ a = 1) ∨ (b = 1 ∧ a = 0) ∨ (b = 1 ∧ a = 2)
      then 1 else 0 }

/-- Context: agent at the junction center of `m3`, last direction up. -/
def ctx3 : Ctx :=
  { currentPos := ⟨1, 1⟩, visited := fun _ => false, visitCounts := fun _ => 0,
    maze := m3, start := none, finish := none, lastDirection := some Dir.up,
    allPlayers := [], currentPlayerIndex := 0 }

/-- A tier holding one zero-weight right-hand wall-following block. -/
def wfTier : Tier := ⟨[⟨BlockType.wallFollowing, 0, some BlockMode.right⟩]⟩

/-- A tier holding one weight-1 right-hand wall-following block. -/
def wfTier1 : Tier := ⟨[⟨BlockType.wallFollowing, 1, some BlockMode.right⟩]⟩

/-- Context: agent at (0,0) with the finish at (1,1). -/
def ctxC2 : Ctx :=
  { currentPos := ⟨0, 0⟩, visited := fun _ => false, visitCounts := fun _ => 0,
    maze := m3, start := none, finish := some ⟨1, 1⟩, lastDirection := none,
    allPlayers := [], currentPlayerIndex := 0 }

/-- Two candidate moves that both strictly decrease the distance to the
finish `(1,1)` from `(0,0)`, at equal resulting distance. -/
def movesC2 : List Move := [⟨1, 0, Dir.right⟩, ⟨0, 1, Dir.down⟩]

/-- Context: agent at (0,1) of `m3` with the finish at (2,1). -/
def ctxC8 : Ctx :=
  { currentPos := ⟨0, 1⟩, visited := fun _ => false, visitCounts := fun _ => 0,
    maze := m3, start := none, finish := some ⟨2, 1⟩, lastDirection := none,
    allPlayers := [], currentPlayerIndex := 0 }

/-! ## List helper lemmas -/

theorem foldl_max_mem {α : Type} [LinearOrder α] :
    ∀ (t : List α) (a : α), t.foldl max a ∈ a :: t := by
  intro t
  induction t with
  | nil => intro a; simp
  | cons b t ih =>
    intro a
    have h := ih (max a b)
    simp only [List.foldl_cons]
    rcases List.mem_cons.mp h with h | h
    · rcases max_choice a b with hm | hm
      · rw [hm] at h ⊢; rw [h]; exact List.mem_cons_self _ _
      · rw [hm] at h ⊢; rw [h]
        exact List.mem_cons_of_mem _ (List.mem_cons_self _ _)
    · exact List.mem_cons_of_mem _ (List.mem_cons_of_mem _ h)

theorem init_le_foldl_max {α : Type} [LinearOrder α] :
    ∀ (t : List α) (a : α), a ≤ t.foldl max a := by
  intro t
  induction t with
  | nil => intro a; simp
  | cons b t ih =>
    intro a
    simp only [List.foldl_cons]
    exact le_trans (le_max_left a b) (ih (max a b))

theorem le_foldl_max {α : Type} [LinearOrder α] :
    ∀ (t : List α) (a x : α), x ∈ a :: t → x ≤ t.foldl max a := by
  intro t
  induction t with
  | nil =>
    intro a x hx
    simp at hx
    simp [hx]
  | cons b t ih =>
    intro a x hx
    simp only [List.foldl_cons]
    rcases List.mem_cons.mp hx with h | h
    · subst h
      exact le_trans (le_max_left x b) (init_le_foldl_max t (max x b))
    · rcases List.mem_cons.mp h with h | h
      · subst h
        exact le_trans (le_max_right a x) (init_le_foldl_max t (max a x))
      · exact ih (max a b) x (List.mem_cons_of_mem _ h)

theorem max?_spec {α : Type} [LinearOrder α] (l : List α) (hl : l ≠ []) :
    ∃ M, l.max? = some M ∧ M ∈ l ∧ ∀ x ∈ l, x ≤ M := by
  cases l with
  | nil => exact absurd rfl hl
  | cons a t =>
    exact ⟨t.foldl max a, rfl, foldl_max_mem t a, fun x hx => le_foldl_max t a x hx⟩

theorem foldl_min_mem {α : Type} [LinearOrder α] :
    ∀ (t : List α) (a : α), t.foldl min a ∈ a :: t := by
  intro t
  induction t with
  | nil => intro a; simp
  | cons b t ih =>
    intro a
    have h := ih (min a b)
    simp only [List.foldl_cons]
    rcases List.mem_cons.mp h with h | h
    · rcases min_choice a b with hm | hm
      · rw [hm] at h ⊢; rw [h]; exact List.mem_cons_self _ _
      · rw [hm] at h ⊢; rw [h]
        exact List.mem_cons_of_mem _ (List.mem_cons_self _ _)
    · exact List.mem_cons_of_mem _ (List.mem_cons_of_mem _ h)

theorem foldl_min_le_init {α : Type} [LinearOrder α] :
    ∀ (t : List α) (a : α), t.foldl min a ≤ a := by
  intro t
  induction t with
  | nil => intro a; simp
  | cons b t ih =>
    intro a
    simp only [List.foldl_cons]
    exact le_trans (ih (min a b)) (min_le_left a b)

theorem foldl_min_le {α : Type} [LinearOrder α] :
    ∀ (t : List α) (a x : α), x ∈ a :: t → t.foldl min a ≤ x := by
  intro t
  induction t with
  | nil =>
    intro a x hx
    simp at hx
    simp [hx]
  | cons b t ih =>
    intro a x hx
    simp only [List.foldl_cons]
    rcases List.mem_cons.mp hx with h | h
    · subst h
      exact le_trans (foldl_min_le_init t (min x b)) (min_le_left x b)
    · rcases List.mem_cons.mp h with h | h
      · subst h
        exact le_trans (foldl_min_le_init t (min a x)) (min_le_right a x)
      · exact ih (min a b) x (List.mem_cons_of_mem _ h)

theorem min?_spec {α : Type} [LinearOrder α] (l : List α) (hl : l ≠ []) :
    ∃ M, l.min? = some M ∧ M ∈ l ∧ ∀ x ∈ l, M ≤ x := by
  cases l with
  | nil => exact absurd rfl hl
  | cons a t =>
    exact ⟨t.foldl min a, rfl, foldl_min_mem t a, fun x hx => foldl_min_le t a x hx⟩

theorem max?_getD_spec {α : Type} [LinearOrder α] (l : List α) (hl : l ≠ []) (d : α) :
    l.max?.getD d ∈ l ∧ ∀ x ∈ l, x ≤ l.max?.getD d := by
  obtain ⟨M, hM, hmem, hle⟩ := max?_spec l hl
  rw [hM]
  exact ⟨hmem, hle⟩

theorem min?_getD_spec {α : Type} [LinearOrder α] (l : List α) (hl : l ≠ []) (d : α) :
    l.min?.getD d ∈ l ∧ ∀ x ∈ l, l.min?.getD d ≤ x := by
  obtain ⟨M, hM, hmem, hle⟩ := min?_spec l hl
  rw [hM]
  exact ⟨hmem, hle⟩

theorem min_getD_lt_max_getD_iff (l : List Int) (hl : l ≠ []) :
    l.min?.getD 0 < l.max?.getD 0 ↔ ∃ a ∈ l, ∃ b ∈ l, a ≠ b := by
  obtain ⟨hminmem, hminle⟩ := min?_getD_spec l hl 0
  obtain ⟨hmaxmem, hmaxle⟩ := max?_getD_spec l hl 0
  constructor
  · intro h
    exact ⟨_, hminmem, _, hmaxmem, ne_of_lt h⟩
  · rintro ⟨a, ha, b, hb, hab⟩
    rcases lt_or_le (l.min?.getD 0) (l.max?.getD 0) with h | h
    · exact h
    · exfalso
      have hm : l.min?.getD 0 = l.max?.getD 0 :=
        le_antisymm (hminle _ hmaxmem) h
      have ha' : a = l.max?.getD 0 :=
        le_antisymm (hmaxle a ha) (hm ▸ hminle a ha)
      have hb' : b = l.max?.getD 0 :=
        le_antisymm (hmaxle b hb) (hm ▸ hminle b hb)
      exact hab (ha'.trans hb'.symm)

theorem mem_map_fst_filter_snd {α β : Type} [DecidableEq β] (l : List α) (f : α → β)
    (c : β) (m : α) :
    (m ∈ ((l.map (fun a => (a, f a))).filter (fun p => p.2 = c)).map Prod.fst) ↔
      (m ∈ l ∧ f m = c) := by
  simp only [List.mem_map, List.mem_filter, decide_eq_true_eq]
  constructor
  · rintro ⟨⟨a, fa⟩, ⟨hmem, hc⟩, hfst⟩
    obtain ⟨a', ha', heq⟩ := hmem
    cases heq
    cases hfst
    exact ⟨ha', hc⟩
  · intro ⟨hm, hc⟩
    exact ⟨(m, f m), ⟨⟨m, hm, rfl⟩, hc⟩, rfl⟩

/-! ## Claim C1 (corrected): all-zero-weight tiers are not skipped -/

theorem selectBlock_all_zero (blocks : List Block) (r : ℚ) (hne : blocks ≠ [])
    (hzero : ∀ b ∈ blocks, b.weight = 0) :
    selectBlock blocks (r * (blocks.map Block.weight).sum) = blocks.head? := by
  cases blocks with
  | nil => exact absurd rfl hne
  | cons b rest =>
    have hsum : ((b :: rest).map Block.weight).sum = 0 := by
      apply List.sum_eq_zero
      intro x hx
      obtain ⟨blk, hblk, hxeq⟩ := List.mem_map.mp hx
      exact hxeq ▸ hzero blk hblk
    rw [hsum, mul_zero]
    simp only [selectBlock, hzero b (List.mem_cons_self _ _), List.head?_cons]
    norm_num

/-- C1 counterexample: a tier holding a single zero-weight (applicable)
wall-following block is not skipped — removing it changes the decision:
with it the agent turns right with the wall-following annotation, without
it the tier-less engine picks the first candidate with the dice
annotation. -/
theorem c1_counterexample :
    (∀ b ∈ wfTier.blocks, b.weight = 0) ∧
    (∀ b ∈ wfTier.blocks, isBlockApplicable b ctx3 [⟨1, 0, Dir.up⟩, ⟨2, 1, Dir.right⟩,
      ⟨0, 1, Dir.left⟩] = true) ∧
    decideNextMove [wfTier] ctx3 (fun _ => 0) ≠ decideNextMove [] ctx3 (fun _ => 0) := by
  refine ⟨by decide, by decide, ?_⟩
  have hL : decideNextMove [wfTier] ctx3 (fun _ => 0) =
      ⟨some ⟨2, 1, Dir.right⟩, some wallRightEmote⟩ := by
    with_unfolding_all rfl
  have hR : decideNextMove [] ctx3 (fun _ => 0) =
      ⟨some ⟨1, 0, Dir.up⟩, some diceEmote⟩ := by
    with_unfolding_all rfl
  rw [hL, hR]
  decide

/-- C1 as amended: a tier whose applicable blocks are nonempty and all
have weight zero is *not* treated as if no block were applicable:
the weighted draw deterministically selects the first applicable block
(`random` is `0`), and that block is executed like any selected block. -/
theorem c1_zero_weight_tier_selects_first (ctx : Ctx) (rand : ℕ → ℚ) (tier : Tier)
    (rest : List Tier) (cur : List Move) (emotes : List String) (k : ℕ)
    (hne : applicableBlocks tier ctx cur ≠ [])
    (hzero : ∀ b ∈ applicableBlocks tier ctx cur, b.weight = 0) :
    ∃ b, (applicableBlocks tier ctx cur).head? = some b ∧
      tierLoop ctx rand (tier :: rest) cur emotes k =
        (if 0 < (executeBlock b ctx cur).moves.length then
          (if (executeBlock b ctx cur).moves.length = 1 then
            ⟨(executeBlock b ctx cur).moves.head?,
              combineEmotes (emotes ++ (executeBlock b ctx cur).thought.toList)⟩
          else
            tierLoop ctx rand rest (executeBlock b ctx cur).moves
              (emotes ++ (executeBlock b ctx cur).thought.toList) (k + 1))
        else tierLoop ctx rand rest cur emotes (k + 1)) := by
  obtain ⟨b, bs, happ⟩ : ∃ b bs, applicableBlocks tier ctx cur = b :: bs := by
    cases h : applicableBlocks tier ctx cur with
    | nil => exact absurd h hne
    | cons b bs => exact ⟨b, bs, rfl⟩
  refine ⟨b, by rw [happ]; rfl, ?_⟩
  have hblocks : tier.blocks.isEmpty = false := by
    rcases h : tier.blocks with _ | _
    · rw [applicableBlocks, h] at happ
      simp at happ
    · rfl
  have hsel : selectBlock (applicableBlocks tier ctx cur)
      (rand k * ((applicableBlocks tier ctx cur).map Block.weight).sum) =
      some b := by
    rw [selectBlock_all_zero _ _ hne hzero, happ, List.head?_cons]
  have happne : (applicableBlocks tier ctx cur).isEmpty = false := by
    rw [happ]; rfl
  simp only [tierLoop, hblocks, Bool.false_eq_true, if_false, happne, hsel]

/-- C1 witness: the amended theorem applied at the concrete T-junction
with the single zero-weight wall-following block. -/
theorem c1_witness :
    ∃ b, (applicableBlocks wfTier ctx3
        [⟨1, 0, Dir.up⟩, ⟨2, 1, Dir.right⟩, ⟨0, 1, Dir.left⟩]).head? = some b ∧
      tierLoop ctx3 (fun _ => 0) [wfTier]
          [⟨1, 0, Dir.up⟩, ⟨2, 1, Dir.right⟩, ⟨0, 1, Dir.left⟩] [] 0 =
        (if 0 < (executeBlock b ctx3
            [⟨1, 0, Dir.up⟩, ⟨2, 1, Dir.right⟩, ⟨0, 1, Dir.left⟩]).moves.length then
          (if (executeBlock b ctx3
              [⟨1, 0, Dir.up⟩, ⟨2, 1, Dir.right⟩, ⟨0, 1, Dir.left⟩]).moves.length = 1 then
            ⟨(executeBlock b ctx3
                [⟨1, 0, Dir.up⟩, ⟨2, 1, Dir.right⟩, ⟨0, 1, Dir.left⟩]).moves.head?,
              combineEmotes ([] ++ (executeBlock b ctx3
                [⟨1, 0, Dir.up⟩, ⟨2, 1, Dir.right⟩, ⟨0, 1, Dir.left⟩]).thought.toList)⟩
          else
            tierLoop ctx3 (fun _ => 0) []
              (executeBlock b ctx3
                [⟨1, 0, Dir.up⟩, ⟨2, 1, Dir.right⟩, ⟨0, 1, Dir.left⟩]).moves
              ([] ++ (executeBlock b ctx3
                [⟨1, 0, Dir.up⟩, ⟨2, 1, Dir.right⟩, ⟨0, 1, Dir.left⟩]).thought.toList) 1)
        else tierLoop ctx3 (fun _ => 0) []
          [⟨1, 0, Dir.up⟩, ⟨2, 1, Dir.right⟩, ⟨0, 1, Dir.left⟩] [] 1) :=
  c1_zero_weight_tier_selects_first ctx3 (fun _ => 0) wfTier []
    [⟨1, 0, Dir.up⟩, ⟨2, 1, Dir.right⟩, ⟨0, 1, Dir.left⟩] [] 0
    (by decide) (by decide)

/-! ## Claim C2 (corrected): TowardExit applicability -/

/-- C2 counterexample: from (0,0) with the exit at (1,1), both moves
(1,0) and (0,1) strictly decrease the Euclidean distance to the exit,
yet the TowardExit block reports itself inapplicable (the two closer
moves are at equal resulting distance). -/
theorem c2_counterexample :
    (∃ m ∈ movesC2,
      distSq ⟨1, 1⟩ m.x m.y < distSq ⟨1, 1⟩ ctxC2.currentPos.x ctxC2.currentPos.y) ∧
    ctxC2.finish = some ⟨1, 1⟩ ∧
    isBlockApplicable ⟨BlockType.towardExit, 1, none⟩ ctxC2 movesC2 = false := by
  refine ⟨by decide, rfl, by decide⟩

/-- C2 as amended: the TowardExit applicability predicate returns true
iff at least one candidate move is strictly closer to the exit than the
current position *and* either exactly one candidate is closer or the
closer candidates do not all land at the same distance. -/
theorem c2_toward_exit_applicability_amended (ctx : Ctx) (f : Pos) (b : Block)
    (moves : List Move) (hf : ctx.finish = some f)
    (hb : b.type = BlockType.towardExit) :
    isBlockApplicable b ctx moves = true ↔
      ((moves.filter (fun m =>
          distSq f m.x m.y < distSq f ctx.currentPos.x ctx.currentPos.y)) ≠ [] ∧
        ((moves.filter (fun m =>
            distSq f m.x m.y < distSq f ctx.currentPos.x ctx.currentPos.y)).length = 1 ∨
          ∃ m1 ∈ moves.filter (fun m =>
            distSq f m.x m.y < distSq f ctx.currentPos.x ctx.currentPos.y),
          ∃ m2 ∈ moves.filter (fun m =>
            distSq f m.x m.y < distSq f ctx.currentPos.x ctx.currentPos.y),
            distSq f m1.x m1.y ≠ distSq f m2.x m2.y)) := by
  simp only [isBlockApplicable, hb, hf]
  by_cases hc : (moves.filter (fun m =>
      distSq f m.x m.y < distSq f ctx.currentPos.x ctx.currentPos.y)) = []
  · rw [hc]
    simp
  · have hempty : (moves.filter (fun m =>
        distSq f m.x m.y < distSq f ctx.currentPos.x ctx.currentPos.y)).isEmpty
        = false := by
      rcases h : moves.filter (fun m =>
        distSq f m.x m.y < distSq f ctx.currentPos.x ctx.currentPos.y) with _ | _
      · exact absurd h hc
      · rw [h]; rfl
    have hcne : ((moves.filter (fun m =>
        distSq f m.x m.y < distSq f ctx.currentPos.x ctx.currentPos.y)).map
          (fun m => distSq f m.x m.y)) ≠ [] := by
      intro h
      exact hc (List.map_eq_nil_iff.mp h)
    simp only [hempty, Bool.false_eq_true, if_false, Bool.or_eq_true, decide_eq_true_eq]
    rw [min_getD_lt_max_getD_iff _ hcne]
    constructor
    · rintro (⟨a, ha, b2, hb2, hab⟩ | hlen)
      · obtain ⟨m1, hm1, hm1e⟩ := List.mem_map.mp ha
        obtain ⟨m2, hm2, hm2e⟩ := List.mem_map.mp hb2
        exact ⟨hc, Or.inr ⟨m1, hm1, m2, hm2, by rw [hm1e, hm2e]; exact hab⟩⟩
      · exact ⟨hc, Or.inl hlen⟩
    · rintro ⟨-, hlen | ⟨m1, hm1, m2, hm2, hd⟩⟩
      · exact Or.inr hlen
      · exact Or.inl ⟨_, List.mem_map_of_mem _ hm1, _, List.mem_map_of_mem _ hm2, hd⟩

/-- C2 witness: the amended applicability evaluated at a junction with a
single strictly-closer move. -/
theorem c2_witness :
    isBlockApplicable ⟨BlockType.towardExit, 1, none⟩ ctxC8 [⟨1, 1, Dir.right⟩] = true :=
  (c2_toward_exit_applicability_amended ctxC8 ⟨2, 1⟩ ⟨BlockType.towardExit, 1, none⟩
    [⟨1, 1, Dir.right⟩] rfl rfl).mpr (by decide)

/-! ## Claim C7 (confirmed): wall-following ranking -/

/-- C7: in Right-hand mode the wall-following score ranks
turn-right (4) above straight (3) above turn-left (2) above reverse (1),
keyed by the last direction; Left-hand mode mirrors this; the filter
keeps exactly the candidates tied for the maximal score; and at a
junction offering straight, right-turn and left-turn in Right-hand mode
only the right-turn move survives. -/
theorem c7_wall_following_ranking :
    (∀ (d : Dir) (x y : Int),
      scoreWallFollowing none ⟨x, y, rightTurns d⟩ (some d) BlockMode.right = 4 ∧
      scoreWallFollowing none ⟨x, y, d⟩ (some d) BlockMode.right = 3 ∧
      scoreWallFollowing none ⟨x, y, leftTurns d⟩ (some d) BlockMode.right = 2 ∧
      scoreWallFollowing none ⟨x, y, oppositeDir d⟩ (some d) BlockMode.right = 1) ∧
    (∀ (d : Dir) (x y : Int),
      scoreWallFollowing none ⟨x, y, leftTurns d⟩ (some d) BlockMode.left = 4 ∧
      scoreWallFollowing none ⟨x, y, d⟩ (some d) BlockMode.left = 3 ∧
      scoreWallFollowing none ⟨x, y, rightTurns d⟩ (some d) BlockMode.left = 2 ∧
      scoreWallFollowing none ⟨x, y, oppositeDir d⟩ (some d) BlockMode.left = 1) ∧
    (∀ (moves : List Move) (ld : Option Dir) (mode : BlockMode) (m : Move),
      m ∈ (wallFollowingLogic moves ld mode).moves ↔
        m ∈ moves ∧ ∀ m2 ∈ moves,
          scoreWallFollowing none m2 ld mode ≤ scoreWallFollowing none m ld mode) ∧
    (∀ (d : Dir) (x1 y1 x2 y2 x3 y3 : Int),
      (wallFollowingLogic [⟨x1, y1, d⟩, ⟨x2, y2, rightTurns d⟩, ⟨x3, y3, leftTurns d⟩]
        (some d) BlockMode.right).moves = [⟨x2, y2, rightTurns d⟩]) := by
  refine ⟨?_, ?_, ?_, ?_⟩
  · intro d x y
    cases d <;> exact ⟨rfl, rfl, rfl, rfl⟩
  · intro d x y
    cases d <;> exact ⟨rfl, rfl, rfl, rfl⟩
  · intro moves ld mode m
    show m ∈ ((moves.map (fun mv =>
        (mv, scoreWallFollowing none mv ld mode))).filter (fun sm => sm.2 =
          ((moves.map (fun mv =>
            (mv, scoreWallFollowing none mv ld mode))).map Prod.snd).max?.getD 0)).map
              Prod.fst ↔ _
    rw [mem_map_fst_filter_snd]
    have hmm : (moves.map (fun mv => (mv, scoreWallFollowing none mv ld mode))).map
        Prod.snd = moves.map (fun mv => scoreWallFollowing none mv ld mode) := by
      rw [List.map_map]
      rfl
    rw [hmm]
    rcases hmv : moves with _ | ⟨m0, rest⟩
    · simp
    · rw [← hmv]
      have hne : moves.map (fun mv => scoreWallFollowing none mv ld mode) ≠ [] := by
        rw [hmv]; simp
      obtain ⟨hmem, hb⟩ := max?_getD_spec _ hne 0
      constructor
      · rintro ⟨hm, hsc⟩
        refine ⟨hm, fun m2 hm2 => ?_⟩
        rw [hsc]
        exact hb _ (List.mem_map_of_mem _ hm2)
      · rintro ⟨hm, hall⟩
        refine ⟨hm, ?_⟩
        obtain ⟨m0', hm0', hm0e⟩ := List.mem_map.mp hmem
        exact le_antisymm (hb _ (List.mem_map_of_mem _ hm)) (hm0e ▸ hall m0' hm0')
  · intro d x1 y1 x2 y2 x3 y3
    cases d <;> rfl

/-! ## Every block narrows the candidate set to a nonempty subset -/

theorem argmax_filter_subset {α β : Type} [LinearOrder β] [DecidableEq β]
    (l : List α) (f : α → β) (c : β) :
    ∀ m ∈ ((l.map (fun a => (a, f a))).filter (fun p => p.2 = c)).map Prod.fst, m ∈ l :=
  fun m hm => ((mem_map_fst_filter_snd l f c m).mp hm).1

theorem argmax_filter_ne {α β : Type} [LinearOrder β] [DecidableEq β]
    (l : List α) (f : α → β) (d : β) (h : l ≠ []) :
    ((l.map (fun a => (a, f a))).filter (fun p =>
      p.2 = ((l.map (fun a => (a, f a))).map Prod.snd).max?.getD d)).map Prod.fst ≠ [] := by
  have hmm : (l.map (fun a => (a, f a))).map Prod.snd = l.map f := by
    rw [List.map_map]; rfl
  have hne : l.map f ≠ [] := by
    intro hh
    exact h (List.map_eq_nil_iff.mp hh)
  obtain ⟨hmem, _⟩ := max?_getD_spec (l.map f) hne d
  obtain ⟨a, ha, hfa⟩ := List.mem_map.mp hmem
  apply List.ne_nil_of_mem
  exact (mem_map_fst_filter_snd l f _ a).mpr ⟨ha, by rw [hmm]; exact hfa⟩

theorem argmin_filter_ne {α β : Type} [LinearOrder β] [DecidableEq β]
    (l : List α) (f : α → β) (d : β) (h : l ≠ []) :
    ((l.map (fun a => (a, f a))).filter (fun p =>
      p.2 = ((l.map (fun a => (a, f a))).map Prod.snd).min?.getD d)).map Prod.fst ≠ [] := by
  have hmm : (l.map (fun a => (a, f a))).map Prod.snd = l.map f := by
    rw [List.map_map]; rfl
  have hne : l.map f ≠ [] := by
    intro hh
    exact h (List.map_eq_nil_iff.mp hh)
  obtain ⟨hmem, _⟩ := min?_getD_spec (l.map f) hne d
  obtain ⟨a, ha, hfa⟩ := List.mem_map.mp hmem
  apply List.ne_nil_of_mem
  exact (mem_map_fst_filter_snd l f _ a).mpr ⟨ha, by rw [hmm]; exact hfa⟩

theorem wallFollowingLogic_moves_subset (moves : List Move) (ld : Option Dir)
    (mode : BlockMode) : ∀ m ∈ (wallFollowingLogic moves ld mode).moves, m ∈ moves :=
  argmax_filter_subset moves (fun m => scoreWallFollowing none m ld mode) _

theorem wallFollowingLogic_moves_ne (moves : List Move) (ld : Option Dir)
    (mode : BlockMode) (h : moves ≠ []) : (wallFollowingLogic moves ld mode).moves ≠ [] :=
  argmax_filter_ne moves (fun m => scoreWallFollowing none m ld mode) 0 h

theorem mem_fst_of_filters {α β : Type} (l : List α) (f : α → β)
    (ps qs : (α × β) → Bool) (m : α)
    (hm : m ∈ (((l.map (fun a => (a, f a))).filter ps).filter qs).map Prod.fst) :
    m ∈ l := by
  obtain ⟨pr, hpr, hfst⟩ := List.mem_map.mp hm
  have hpr2 := List.mem_of_mem_filter (List.mem_of_mem_filter hpr)
  obtain ⟨a, ha, hae⟩ := List.mem_map.mp hpr2
  cases hae
  cases hfst
  exact ha

theorem lineOfSightLogic_moves_subset (moves : List Move) (p : Pos) (f : Option Pos)
    (mz : Maze) (vis : Pos → Bool) :
    ∀ m ∈ (lineOfSightLogic moves p f mz vis).moves, m ∈ moves := by
  intro m hm
  rw [lineOfSightLogic.eq_def] at hm
  rcases f with _ | f0
  · simp only at hm
    split at hm
    · rename_i hlen
      exact mem_fst_of_filters _ _ _ _ m hm
    · exact hm
  · simp only at hm
    split at hm
    · rename_i r hr
      split at hr
      · split at hr
        · rw [Option.some.injEq] at hr
          subst hr
          exact List.mem_of_mem_filter hm
        · exact absurd hr (by simp)
      · exact absurd hr (by simp)
    · rename_i hr
      split at hm
      · exact mem_fst_of_filters _ _ _ _ m hm
      · exact hm

theorem lineOfSightLogic_moves_ne (moves : List Move) (p : Pos) (f : Option Pos)
    (mz : Maze) (vis : Pos → Bool) (h : moves ≠ []) :
    (lineOfSightLogic moves p f mz vis).moves ≠ [] := by
  rw [lineOfSightLogic.eq_def]
  have hsecond : ∀ r : ExecResult,
      r = (let movesWithDistance := (moves.map (fun m =>
            (m, distanceToUncharted m p mz vis))).filter (fun md => 0 < md.2)
          if 0 < movesWithDistance.length then
            ⟨(movesWithDistance.filter (fun md => md.2 =
              (movesWithDistance.map Prod.snd).min?.getD 0)).map Prod.fst,
              some insightEmote⟩
          else ⟨moves, none⟩) → r.moves ≠ [] := by
    intro r hr
    simp only at hr
    split at hr
    · rename_i hlen
      subst hr
      simp only
      intro hnil
      have hne : ((moves.map (fun m => (m, distanceToUncharted m p mz vis))).filter
          (fun md => 0 < md.2)) ≠ [] := by
        intro hh
        rw [hh] at hlen
        simp at hlen
      obtain ⟨hmem, _⟩ := min?_getD_spec (((moves.map (fun m =>
        (m, distanceToUncharted m p mz vis))).filter (fun md => 0 < md.2)).map Prod.snd)
        (by intro hh; exact hne (List.map_eq_nil_iff.mp hh)) 0
      obtain ⟨pr, hpr, hpr2⟩ := List.mem_map.mp hmem
      have : pr.1 ∈ (((moves.map (fun m => (m, distanceToUncharted m p mz vis))).filter
          (fun md => 0 < md.2)).filter (fun md => md.2 =
            (((moves.map (fun m => (m, distanceToUncharted m p mz vis))).filter
              (fun md => 0 < md.2)).map Prod.snd).min?.getD 0)).map Prod.fst := by
        apply List.mem_map_of_mem
        apply List.mem_filter.mpr
        exact ⟨hpr, by simp [hpr2]⟩
      rw [hnil] at this
      simp at this
    · subst hr
      exact h
  rcases f with _ | f0
  · exact hsecond _ rfl
  · simp only
    split
    · rename_i r hr
      split at hr
      · split at hr
        · rw [Option.some.injEq] at hr
          subst hr
          simp only
          rename_i hlen
          intro hh
          rw [hh] at hlen
          simp at hlen
        · exact absurd hr (by simp)
      · exact absurd hr (by simp)
    · exact hsecond _ rfl

theorem towardExitLogic_moves_subset (moves : List Move) (p : Pos) (f : Option Pos) :
    ∀ m ∈ (towardExitLogic moves p f).moves, m ∈ moves := by
  intro m hm
  rw [towardExitLogic.eq_def] at hm
  rcases f with _ | f0
  · exact hm
  · simp only at hm
    split at hm
    · exact hm
    · exact List.mem_of_mem_filter (List.mem_of_mem_filter hm)

theorem towardExitLogic_moves_ne (moves : List Move) (p : Pos) (f : Option Pos)
    (h : moves ≠ []) : (towardExitLogic moves p f).moves ≠ [] := by
  rw [towardExitLogic.eq_def]
  rcases f with _ | f0
  · exact h
  · simp only
    split
    · exact h
    · rename_i hemp
      simp only
      have hne : moves.filter (fun m => distSq f0 m.x m.y < distSq f0 p.x p.y) ≠ [] := by
        intro hh
        rw [hh] at hemp
        simp at hemp
      obtain ⟨hmem, _⟩ := min?_getD_spec ((moves.filter (fun m =>
        distSq f0 m.x m.y < distSq f0 p.x p.y)).map (fun m => distSq f0 m.x m.y))
        (by intro hh; exact hne (List.map_eq_nil_iff.mp hh)) 0
      obtain ⟨mv, hmv, hmv2⟩ := List.mem_map.mp hmem
      apply List.ne_nil_of_mem
      apply List.mem_filter.mpr
      exact ⟨hmv, by simp [hmv2]⟩

theorem checkMapLogic_moves_subset (moves : List Move) (p : Pos) (f : Option Pos)
    (mz : Maze) : ∀ m ∈ (checkMapLogic moves p f mz).moves, m ∈ moves := by
  intro m hm
  rw [checkMapLogic.eq_def] at hm
  rcases f with _ | f0
  · exact hm
  · simp only at hm
    split at hm
    · exact hm
    · split at hm
      · exact hm
      · split at hm
        · exact hm
        · split at hm
          · exact List.mem_of_mem_filter hm
          · exact hm

theorem checkMapLogic_moves_ne (moves : List Move) (p : Pos) (f : Option Pos)
    (mz : Maze) (h : moves ≠ []) : (checkMapLogic moves p f mz).moves ≠ [] := by
  rw [checkMapLogic.eq_def]
  rcases f with _ | f0
  · exact h
  · simp only
    split
    · exact h
    · split
      · exact h
      · split
        · exact h
        · split
          · rename_i hlen
            simp only
            intro hh
            rw [hh] at hlen
            simp at hlen
          · exact h

theorem backtrackingLogic_moves_subset (moves : List Move) (vis : Pos → Bool)
    (vc : Pos → Nat) (mode : BlockMode) :
    ∀ m ∈ (backtrackingLogic moves vis vc mode).moves, m ∈ moves := by
  intro m hm
  rw [backtrackingLogic] at hm
  split at hm
  · exact argmax_filter_subset moves (fun mv => vc ⟨mv.x, mv.y⟩) _ m hm
  · exact argmax_filter_subset moves (fun mv => vc ⟨mv.x, mv.y⟩) _ m hm

theorem backtrackingLogic_moves_ne (moves : List Move) (vis : Pos → Bool)
    (vc : Pos → Nat) (mode : BlockMode) (h : moves ≠ []) :
    (backtrackingLogic moves vis vc mode).moves ≠ [] := by
  rw [backtrackingLogic]
  split
  · exact argmin_filter_ne moves (fun mv => vc ⟨mv.x, mv.y⟩) 0 h
  · exact argmax_filter_ne moves (fun mv => vc ⟨mv.x, mv.y⟩) 0 h

theorem socialLogic_moves_subset (moves : List Move) (p : Pos) (mz : Maze)
    (players : List Player) (idx : Nat) (mode : BlockMode) :
    ∀ m ∈ (socialLogic moves p mz players idx mode).moves, m ∈ moves :=
  argmax_filter_subset moves (fun mv =>
    if mode = BlockMode.follow
    then (countPlayersInDirection mv p mz players idx : Int)
    else -(countPlayersInDirection mv p mz players idx : Int)) _

theorem socialLogic_moves_ne (moves : List Move) (p : Pos) (mz : Maze)
    (players : List Player) (idx : Nat) (mode : BlockMode) (h : moves ≠ []) :
    (socialLogic moves p mz players idx mode).moves ≠ [] :=
  argmax_filter_ne moves (fun mv =>
    if mode = BlockMode.follow
    then (countPlayersInDirection mv p mz players idx : Int)
    else -(countPlayersInDirection mv p mz players idx : Int)) 0 h

theorem executeBlock_moves_subset (block : Block) (ctx : Ctx) (cur : List Move) :
    ∀ m ∈ (executeBlock block ctx cur).moves, m ∈ cur := by
  rw [executeBlock]
  cases block.type
  case wallFollowing => exact wallFollowingLogic_moves_subset _ _ _
  case rightWall => exact wallFollowingLogic_moves_subset _ _ _
  case lineOfSight => exact lineOfSightLogic_moves_subset _ _ _ _ _
  case towardExit => exact towardExitLogic_moves_subset _ _ _
  case checkMap => exact checkMapLogic_moves_subset _ _ _ _
  case backtracking => exact backtrackingLogic_moves_subset _ _ _ _
  case social => exact socialLogic_moves_subset _ _ _ _ _ _
  case randomGuesser => exact fun m hm => hm
  case unknownType => exact fun m hm => hm

theorem executeBlock_moves_ne (block : Block) (ctx : Ctx) (cur : List Move)
    (h : cur ≠ []) : (executeBlock block ctx cur).moves ≠ [] := by
  rw [executeBlock]
  cases block.type
  case wallFollowing => exact wallFollowingLogic_moves_ne _ _ _ h
  case rightWall => exact wallFollowingLogic_moves_ne _ _ _ h
  case lineOfSight => exact lineOfSightLogic_moves_ne _ _ _ _ _ h
  case towardExit => exact towardExitLogic_moves_ne _ _ _ h
  case checkMap => exact checkMapLogic_moves_ne _ _ _ _ h
  case backtracking => exact backtrackingLogic_moves_ne _ _ _ _ h
  case social => exact socialLogic_moves_ne _ _ _ _ _ _ h
  case randomGuesser => exact h
  case unknownType => exact h

/-! ## The engine returns a member of the narrowed candidate set -/

theorem finalPick_move_mem (rand : ℕ → ℚ) (cur : List Move) (emotes : List String)
    (k : ℕ) (hr : 0 ≤ rand k ∧ rand k < 1) (h : cur ≠ []) :
    ∃ m, (finalPick rand cur emotes k).move = some m ∧ m ∈ cur := by
  have hlen : 0 < cur.length := List.length_pos.mpr h
  have h0 : (0 : ℚ) ≤ rand k * cur.length := by
    apply mul_nonneg hr.1
    positivity
  have hlt : rand k * (cur.length : ℚ) < cur.length := by
    calc rand k * (cur.length : ℚ) < 1 * cur.length := by
          apply mul_lt_mul_of_pos_right hr.2
          exact_mod_cast hlen
    _ = cur.length := one_mul _
  have hfl0 : 0 ≤ ⌊rand k * (cur.length : ℚ)⌋ := Int.floor_nonneg.mpr h0
  have hflt : ⌊rand k * (cur.length : ℚ)⌋ < (cur.length : ℤ) :=
    Int.floor_lt.mpr (by exact_mod_cast hlt)
  have hnat : (⌊rand k * (cur.length : ℚ)⌋).toNat < cur.length := by
    omega
  refine ⟨cur.get ⟨(⌊rand k * (cur.length : ℚ)⌋).toNat, hnat⟩, ?_, List.get_mem _ _ _⟩
  rw [finalPick]
  simp only
  rw [List.get?_eq_get hnat]

theorem tierLoop_move_spec (ctx : Ctx) (rand : ℕ → ℚ)
    (hr : ∀ n, 0 ≤ rand n ∧ rand n < 1) :
    ∀ (tiers : List Tier) (cur : List Move) (emotes : List String) (k : ℕ),
      cur ≠ [] → ∃ m, (tierLoop ctx rand tiers cur emotes k).move = some m ∧ m ∈ cur := by
  intro tiers
  induction tiers with
  | nil =>
    intro cur emotes k h
    exact finalPick_move_mem rand cur emotes k (hr k) h
  | cons tier rest ih =>
    intro cur emotes k h
    simp only [tierLoop]
    split
    · exact ih cur emotes k h
    · split
      · exact ih cur emotes k h
      · split
        · exact ih cur emotes (k + 1) h
        · rename_i b hb
          split
          · rename_i hpos
            split
            · rename_i hone
              obtain ⟨m, hm⟩ := List.length_eq_one.mp hone
              refine ⟨m, ?_, executeBlock_moves_subset _ _ _ m (by rw [hm]; simp)⟩
              simp only [hm, List.head?_cons]
            · obtain ⟨m, hm, hmem⟩ := ih (executeBlock b ctx cur).moves _ (k + 1)
                (executeBlock_moves_ne b ctx cur h)
              exact ⟨m, hm, executeBlock_moves_subset _ _ _ m hmem⟩
          · exact ih cur emotes (k + 1) h

theorem narrowedMoves_eq_none (ctx : Ctx) (hld : ctx.lastDirection = none) :
    narrowedMoves ctx = getPossibleMoves ctx.currentPos ctx.maze := by
  rw [narrowedMoves, hld]

theorem narrowedMoves_eq_some (ctx : Ctx) (d : Dir) (hld : ctx.lastDirection = some d) :
    narrowedMoves ctx =
      if 0 < ((getPossibleMoves ctx.currentPos ctx.maze).filter
          (fun m => m.direction ≠ oppositeDir d)).length
      then (getPossibleMoves ctx.currentPos ctx.maze).filter
          (fun m => m.direction ≠ oppositeDir d)
      else getPossibleMoves ctx.currentPos ctx.maze := by
  rw [narrowedMoves, hld]

theorem narrowedMoves_subset (ctx : Ctx) :
    ∀ m ∈ narrowedMoves ctx, m ∈ getPossibleMoves ctx.currentPos ctx.maze := by
  intro m hm
  rcases hld : ctx.lastDirection with _ | d
  · rw [narrowedMoves_eq_none ctx hld] at hm
    exact hm
  · rw [narrowedMoves_eq_some ctx d hld] at hm
    split at hm
    · exact List.mem_of_mem_filter hm
    · exact hm

theorem narrowedMoves_ne (ctx : Ctx)
    (h : getPossibleMoves ctx.currentPos ctx.maze ≠ []) : narrowedMoves ctx ≠ [] := by
  rcases hld : ctx.lastDirection with _ | d
  · rw [narrowedMoves_eq_none ctx hld]
    exact h
  · rw [narrowedMoves_eq_some ctx d hld]
    split
    · rename_i hpos
      intro hh
      rw [hh] at hpos
      simp at hpos
    · exact h

theorem decideNextMove_move_mem (tiers : List Tier) (ctx : Ctx) (rand : ℕ → ℚ)
    (hr : ∀ n, 0 ≤ rand n ∧ rand n < 1)
    (h : getPossibleMoves ctx.currentPos ctx.maze ≠ []) :
    ∃ m, (decideNextMove tiers ctx rand).move = some m ∧ m ∈ narrowedMoves ctx := by
  rw [decideNextMove]
  have hEmp : (getPossibleMoves ctx.currentPos ctx.maze).isEmpty = false := by
    rcases hh : getPossibleMoves ctx.currentPos ctx.maze with _ | _
    · exact absurd hh h
    · rfl
  rw [hEmp]
  simp only [Bool.false_eq_true, if_false]
  split
  · rename_i hone
    obtain ⟨m, hm⟩ := List.length_eq_one.mp hone
    exact ⟨m, by simp [hm], by rw [hm]; simp⟩
  · exact tierLoop_move_spec ctx rand hr tiers (narrowedMoves ctx) [] 0
      (narrowedMoves_ne ctx h)

/-- The directions of distinct generated moves are distinct. -/
theorem getPossibleMoves_pairwise_dir (p : Pos) (mz : Maze) :
    (getPossibleMoves p mz).Pairwise (fun a b => a.direction ≠ b.direction) := by
  rw [getPossibleMoves, List.pairwise_filterMap]
  have base : ([Dir.up, Dir.right, Dir.down, Dir.left] : List Dir).Pairwise (· ≠ ·) := by
    decide
  apply base.imp_of_mem
  intro d d' hd hd' hne
  intro b hb b' hb'
  simp only [Option.mem_def] at hb hb'
  split at hb
  · rw [Option.some.injEq] at hb
    split at hb'
    · rw [Option.some.injEq] at hb'
      rw [← hb, ← hb']
      exact hne
    · exact absurd hb' (by simp)
  · exact absurd hb (by simp)

/-! ## Claim C9 (confirmed): the engine is safe -/

/-- C9: `decideNextMove` returns a null move iff there is no legal move
from the current position, and any returned move is one of
`getPossibleMoves` (in-bounds and open), for every tier configuration
and every random stream. -/
theorem c9_decide_safety (tiers : List Tier) (ctx : Ctx) (rand : ℕ → ℚ)
    (hr : ∀ n, 0 ≤ rand n ∧ rand n < 1) :
    ((decideNextMove tiers ctx rand).move = none ↔
      getPossibleMoves ctx.currentPos ctx.maze = []) ∧
    ∀ m, (decideNextMove tiers ctx rand).move = some m →
      m ∈ getPossibleMoves ctx.currentPos ctx.maze := by
  by_cases h : getPossibleMoves ctx.currentPos ctx.maze = []
  · have hres : decideNextMove tiers ctx rand = ⟨none, none⟩ := by
      rw [decideNextMove, h]
      rfl
    rw [hres]
    exact ⟨by simp [h], by simp⟩
  · obtain ⟨m, hm, hmem⟩ := decideNextMove_move_mem tiers ctx rand hr h
    constructor
    · rw [hm]
      simp [h]
    · intro m' hm'
      rw [hm, Option.some.injEq] at hm'
      subst hm'
      exact narrowedMoves_subset ctx m hmem

/-- C9 witness at the concrete T-junction. -/
theorem c9_witness :
    ((decideNextMove [] ctx3 (fun _ => 0)).move = none ↔
      getPossibleMoves ctx3.currentPos ctx3.maze = []) ∧
    ∀ m, (decideNextMove [] ctx3 (fun _ => 0)).move = some m →
      m ∈ getPossibleMoves ctx3.currentPos ctx3.maze :=
  c9_decide_safety [] ctx3 (fun _ => 0) (fun n => ⟨le_refl 0, by norm_num⟩)

/-! ## Claim C5 (confirmed): anti-reversal -/

/-- C5: with a last direction set, when at least two legal moves exist
the returned move is never the reverse of the last direction; when the
reverse move is the only legal move it is returned. -/
theorem c5_anti_reversal (tiers : List Tier) (ctx : Ctx) (rand : ℕ → ℚ) (d : Dir)
    (hld : ctx.lastDirection = some d) (hr : ∀ n, 0 ≤ rand n ∧ rand n < 1) :
    (2 ≤ (getPossibleMoves ctx.currentPos ctx.maze).length →
      ∀ m, (decideNextMove tiers ctx rand).move = some m →
        m.direction ≠ oppositeDir d) ∧
    (∀ m, getPossibleMoves ctx.currentPos ctx.maze = [m] →
      m.direction = oppositeDir d → (decideNextMove tiers ctx rand).move = some m) := by
  constructor
  · intro hlen m hm
    have hne : getPossibleMoves ctx.currentPos ctx.maze ≠ [] := by
      intro hh
      rw [hh] at hlen
      simp at hlen
    obtain ⟨m0, hm0, hmem⟩ := decideNextMove_move_mem tiers ctx rand hr hne
    rw [hm0, Option.some.injEq] at hm
    subst hm
    rw [narrowedMoves_eq_some ctx d hld] at hmem
    by_cases hf : 0 < ((getPossibleMoves ctx.currentPos ctx.maze).filter
        (fun mv => mv.direction ≠ oppositeDir d)).length
    · rw [if_pos hf] at hmem
      have hmf := List.mem_filter.mp hmem
      simpa using hmf.2
    · exfalso
      have hnil : ((getPossibleMoves ctx.currentPos ctx.maze).filter
          (fun mv => mv.direction ≠ oppositeDir d)) = [] := by
        apply List.eq_nil_of_length_eq_zero
        omega
      have hall : ∀ mv ∈ getPossibleMoves ctx.currentPos ctx.maze,
          mv.direction = oppositeDir d := by
        intro mv hmv
        by_contra hcon
        have : mv ∈ (getPossibleMoves ctx.currentPos ctx.maze).filter
            (fun mv => mv.direction ≠ oppositeDir d) :=
          List.mem_filter.mpr ⟨hmv, by simpa using hcon⟩
        rw [hnil] at this
        simp at this
      rcases hlist : getPossibleMoves ctx.currentPos ctx.maze with _ | ⟨m1, rest1⟩
      · rw [hlist] at hlen
        simp at hlen
      rcases rest1 with _ | ⟨m2, rest2⟩
      · rw [hlist] at hlen
        simp at hlen
      have hpw := getPossibleMoves_pairwise_dir ctx.currentPos ctx.maze
      rw [hlist] at hpw
      have h12 := (List.pairwise_cons.mp hpw).1 m2 (by simp)
      apply h12
      rw [hall m1 (by rw [hlist]; simp), hall m2 (by rw [hlist]; simp)]
  · intro m hpm hdir
    have h1 : narrowedMoves ctx = [m] := by
      rw [narrowedMoves_eq_some ctx d hld, hpm]
      have hfil : ([m].filter (fun mv => mv.direction ≠ oppositeDir d)) = [] := by
        simp [hdir]
      rw [hfil]
      simp
    rw [decideNextMove, hpm, h1]
    rfl

/-- C5 witness: a dead end whose only legal move is the reverse. -/
theorem c5_witness :
    (2 ≤ (getPossibleMoves ctx3.currentPos ctx3.maze).length →
      ∀ m, (decideNextMove [] ctx3 (fun _ => 0)).move = some m →
        m.direction ≠ oppositeDir Dir.up) ∧
    (∀ m, getPossibleMoves ctx3.currentPos ctx3.maze = [m] →
      m.direction = oppositeDir Dir.up →
        (decideNextMove [] ctx3 (fun _ => 0)).move = some m) :=
  c5_anti_reversal [] ctx3 (fun _ => 0) Dir.up rfl (fun n => ⟨le_refl 0, by norm_num⟩)

/-! ## Claim C6 (confirmed): a single-move narrowing short-circuits -/

/-- C6: as soon as the executed block of a tier narrows the candidate
set to exactly one move, `decideNextMove` returns that move immediately
with the annotation accumulated so far; the remaining tiers `rest` are
arbitrary and do not occur in the result. -/
theorem c6_single_move_short_circuit (ctx : Ctx) (rand : ℕ → ℚ) (tier : Tier)
    (rest : List Tier) (cur : List Move) (emotes : List String) (k : ℕ)
    (b : Block) (m : Move)
    (hsel : selectBlock (applicableBlocks tier ctx cur)
      (rand k * ((applicableBlocks tier ctx cur).map Block.weight).sum) = some b)
    (hexec : (executeBlock b ctx cur).moves = [m]) :
    tierLoop ctx rand (tier :: rest) cur emotes k =
      ⟨some m, combineEmotes (emotes ++ (executeBlock b ctx cur).thought.toList)⟩ := by
  have happne : applicableBlocks tier ctx cur ≠ [] := by
    intro hh
    rw [hh] at hsel
    simp [selectBlock] at hsel
  have hblocks : tier.blocks.isEmpty = false := by
    rcases hbl : tier.blocks with _ | _
    · exfalso
      apply happne
      rw [applicableBlocks, hbl]
      rfl
    · rfl
  have happEmp : (applicableBlocks tier ctx cur).isEmpty = false := by
    rcases hap : applicableBlocks tier ctx cur with _ | _
    · exact absurd hap happne
    · rfl
  simp only [tierLoop, hblocks, Bool.false_eq_true, if_false, happEmp, hsel]
  rw [hexec]
  simp

/-- C6 witness: a weight-1 wall-following tier narrows the T-junction
candidates to the single right-turn move and returns it at once. -/
theorem c6_witness :
    tierLoop ctx3 (fun _ => 0) [wfTier1]
        [⟨1, 0, Dir.up⟩, ⟨2, 1, Dir.right⟩, ⟨0, 1, Dir.left⟩] [] 0 =
      ⟨some ⟨2, 1, Dir.right⟩,
        combineEmotes ([] ++ (executeBlock ⟨BlockType.wallFollowing, 1, some BlockMode.right⟩
          ctx3 [⟨1, 0, Dir.up⟩, ⟨2, 1, Dir.right⟩, ⟨0, 1, Dir.left⟩]).thought.toList)⟩ :=
  c6_single_move_short_circuit ctx3 (fun _ => 0) wfTier1 []
    [⟨1, 0, Dir.up⟩, ⟨2, 1, Dir.right⟩, ⟨0, 1, Dir.left⟩] [] 0
    ⟨BlockType.wallFollowing, 1, some BlockMode.right⟩ ⟨2, 1, Dir.right⟩
    (by with_unfolding_all rfl) (by decide)

/-! ## Claim C10 (confirmed): the decision never mutates its inputs -/

theorem executeBlockW_eq (block : Block) (w : World) (cur : List Move) :
    executeBlockW block w cur = (executeBlock block w.ctx cur, w) := by
  rw [executeBlockW, executeBlock]
  cases block.type <;> rfl

theorem tierLoopW_eq (rand : ℕ → ℚ) :
    ∀ (fuel i : ℕ) (w : World) (cur : List Move) (emotes : List String) (k : ℕ),
      w.tiers.length ≤ i + fuel →
      tierLoopW rand fuel i w cur emotes k =
        (tierLoop w.ctx rand (w.tiers.drop i) cur emotes k, w) := by
  intro fuel
  induction fuel with
  | zero =>
    intro i w cur emotes k hle
    have hdrop : w.tiers.drop i = [] := List.drop_eq_nil_of_le (by omega)
    rw [tierLoopW, hdrop, tierLoop]
  | succ fuel ih =>
    intro i w cur emotes k hle
    rw [tierLoopW]
    cases hget : w.tiers.get? i with
    | none =>
      have hlen : w.tiers.length ≤ i := List.get?_eq_none.mp hget
      rw [List.drop_eq_nil_of_le hlen, tierLoop]
    | some tier =>
      obtain ⟨hlt, hgeteq⟩ := List.get?_eq_some.mp hget
      have hdrop : w.tiers.drop i = tier :: w.tiers.drop (i + 1) := by
        rw [List.drop_eq_getElem_cons hlt]
        congr 1
      rw [hdrop]
      simp only [tierLoop]
      by_cases hbe : tier.blocks.isEmpty = true
      · simp only [hbe, if_true]
        exact ih (i + 1) w cur emotes k (by omega)
      · simp only [hbe, Bool.false_eq_true, if_false]
        by_cases hae : (applicableBlocks tier w.ctx cur).isEmpty = true
        · simp only [hae, if_true]
          exact ih (i + 1) w cur emotes k (by omega)
        · simp only [hae, Bool.false_eq_true, if_false]
          cases hsel : selectBlock (applicableBlocks tier w.ctx cur)
              (rand k * ((applicableBlocks tier w.ctx cur).map Block.weight).sum) with
          | none => exact ih (i + 1) w cur emotes (k + 1) (by omega)
          | some b =>
            simp only [executeBlockW_eq]
            by_cases hpos : 0 < (executeBlock b w.ctx cur).moves.length
            · simp only [hpos, if_true]
              by_cases hone : (executeBlock b w.ctx cur).moves.length = 1
              · simp only [hone, if_true]
              · simp only [hone, if_false]
                exact ih (i + 1) w (executeBlock b w.ctx cur).moves
                  (emotes ++ (executeBlock b w.ctx cur).thought.toList) (k + 1) (by omega)
            · simp only [hpos, if_false]
              exact ih (i + 1) w cur emotes (k + 1) (by omega)

/-- C10: the decision procedure leaves the whole mutable environment —
the grid, the visited set, the visit-count map, the tier configuration
and the players — exactly as it found it, and its decision agrees with
the pure rendering of the engine. -/
theorem c10_no_mutation (w : World) (rand : ℕ → ℚ) :
    (decideNextMoveW w rand).2 = w ∧
    (decideNextMoveW w rand).1 = decideNextMove w.tiers w.ctx rand := by
  have h := tierLoopW_eq rand w.tiers.length 0 w (narrowedMoves w.ctx) [] 0 (by omega)
  rw [List.drop_zero] at h
  rw [decideNextMoveW, decideNextMove]
  split
  · exact ⟨rfl, rfl⟩
  · split
    · exact ⟨rfl, rfl⟩
    · rw [h]
      exact ⟨rfl, rfl⟩

/-! ## Claim C3 (confirmed): the carving invariants -/

theorem mem_intRange {a b z : Int} : z ∈ intRange a b ↔ a ≤ z ∧ z < b := by
  simp only [intRange, List.mem_map, List.mem_range]
  constructor
  · rintro ⟨i, hi, rfl⟩
    omega
  · intro ⟨h1, h2⟩
    exact ⟨(z - a).toNat, by omega, by omega⟩

theorem nodup_intRange (a b : Int) : (intRange a b).Nodup := by
  apply List.Nodup.map
  · intro i j h
    simp only at h
    omega
  · exact List.nodup_range _

theorem mem_cellList {m : Maze} {c : Int × Int} :
    c ∈ cellList m ↔ 0 ≤ c.1 ∧ c.1 < m.width ∧ 0 ≤ c.2 ∧ c.2 < m.height := by
  rcases c with ⟨cx, cy⟩
  simp only [cellList, List.mem_flatMap, List.mem_map, mem_intRange]
  constructor
  · rintro ⟨y0, hy, x0, hx, heq⟩
    cases heq
    exact ⟨hx.1, hx.2, hy.1, hy.2⟩
  · intro ⟨h1, h2, h3, h4⟩
    exact ⟨cy, ⟨h3, h4⟩, cx, ⟨h1, h2⟩, rfl⟩

theorem nodup_cellList (m : Maze) : (cellList m).Nodup := by
  rw [cellList, List.nodup_flatMap]
  constructor
  · intro y hy
    apply List.Nodup.map
    · intro x1 x2 h
      exact congrArg Prod.fst h
    · exact nodup_intRange _ _
  · apply List.Pairwise.imp ?_ (nodup_intRange 0 m.height)
    intro y1 y2 hne c hc1 hc2
    obtain ⟨x1, _, rfl⟩ := List.mem_map.mp hc1
    obtain ⟨x2, _, he⟩ := List.mem_map.mp hc2
    cases he
    exact hne rfl

theorem countP_congr_mem {α : Type} (p q : α → Bool) :
    ∀ l : List α, (∀ c ∈ l, p c = q c) → l.countP p = l.countP q := by
  intro l
  induction l with
  | nil => intro h; rfl
  | cons c t ih =>
    intro h
    rw [List.countP_cons, List.countP_cons,
      ih (fun c' hc' => h c' (List.mem_cons_of_mem _ hc')),
      h c (List.mem_cons_self _ _)]

theorem countP_le_with_exception {α : Type} [DecidableEq α] (a : α) (p q : α → Bool) :
    ∀ l : List α, (∀ c ∈ l, c ≠ a → p c = true → q c = true) →
      l.countP p ≤ l.countP q + l.count a := by
  intro l
  induction l with
  | nil => intro h; simp
  | cons c t ih =>
    intro h
    have ht := ih (fun c' hc' => h c' (List.mem_cons_of_mem _ hc'))
    have hpq := h c (List.mem_cons_self _ _)
    rw [List.countP_cons, List.countP_cons, List.count_cons]
    split_ifs <;> try omega
    all_goals
      exfalso
      rename_i hp hq hbe
      refine hq (hpq ?_ hp)
      intro hh
      subst hh
      simp at hbe

theorem countP_le_count {α : Type} [DecidableEq α] (a : α) (p : α → Bool) :
    ∀ l : List α, (∀ c ∈ l, p c = true → c = a) → l.countP p ≤ l.count a := by
  intro l
  induction l with
  | nil => intro h; simp
  | cons c t ih =>
    intro h
    have ht := ih (fun c' hc' => h c' (List.mem_cons_of_mem _ hc'))
    have hpa := h c (List.mem_cons_self _ _)
    rw [List.countP_cons, List.count_cons]
    split_ifs <;> try omega
    all_goals
      exfalso
      rename_i hp hbe
      apply hbe
      rw [hpa hp]
      simp

theorem plow_grid_eq_one (m : Maze) (x y b a : Int) :
    (plow m x y).grid b a = 1 ↔ (b = y ∧ a = x) ∨ m.grid b a = 1 := by
  rw [plow]
  simp only
  split
  · rename_i hcond
    exact ⟨fun _ => Or.inl hcond, fun _ => rfl⟩
  · rename_i hcond
    constructor
    · exact fun hg => Or.inr hg
    · rintro (hh | hg)
      · exact absurd hh hcond
      · exact hg

theorem plow_grid_eq_of_ne (m : Maze) (x y b a : Int) (h : ¬ (b = y ∧ a = x)) :
    (plow m x y).grid b a = m.grid b a := by
  rw [plow]
  simp only
  rw [if_neg h]

theorem intRange_two (a : Int) : intRange a (a + 2) = [a, a + 1] := by
  rw [intRange]
  have h2 : (a + 2 - a).toNat = 2 := by omega
  rw [h2, show List.range 2 = [0, 1] from rfl]
  simp

/-- The four cells of an in-bounds 2x2 block, as enumerated by
`check2x2Block`. -/
theorem block_cells_eq (x1 y1 : Int) :
    ((intRange y1 (y1 + 1 + 1)).flatMap (fun checkY =>
      (intRange x1 (x1 + 1 + 1)).map (fun checkX => (checkX, checkY)))) =
      [(x1, y1), (x1 + 1, y1), (x1, y1 + 1), (x1 + 1, y1 + 1)] := by
  have hx : x1 + 1 + 1 = x1 + 2 := by ring
  have hy : y1 + 1 + 1 = y1 + 2 := by ring
  rw [hx, hy, intRange_two, intRange_two]
  rfl

/-- An in-bounds 2x2 check that passes rules out the block being fully
open after the carve. -/
theorem check2x2_not_full (m : Maze) (x y x1 y1 : Int)
    (hb : 0 ≤ x1 ∧ 0 ≤ y1 ∧ x1 + 1 < m.width ∧ y1 + 1 < m.height)
    (hchk : check2x2Block m x y x1 y1 (x1 + 1) (y1 + 1) = true) :
    ¬ ((m.grid y1 x1 = 1 ∨ (y1 = y ∧ x1 = x)) ∧
       (m.grid y1 (x1 + 1) = 1 ∨ (y1 = y ∧ x1 + 1 = x)) ∧
       (m.grid (y1 + 1) x1 = 1 ∨ (y1 + 1 = y ∧ x1 = x)) ∧
       (m.grid (y1 + 1) (x1 + 1) = 1 ∨ (y1 + 1 = y ∧ x1 + 1 = x))) := by
  rintro ⟨h1, h2, h3, h4⟩
  rw [check2x2Block] at hchk
  rw [if_neg (by omega)] at hchk
  simp only [block_cells_eq] at hchk
  have conv : ∀ (gx gy : Int), (m.grid gy gx = 1 ∨ (gy = y ∧ gx = x)) →
      (m.grid gy gx == 1 || (gx == x && gy == y)) = true := by
    intro gx gy h
    rcases h with h | ⟨hy2, hx2⟩
    · simp [h]
    · subst hy2
      subst hx2
      simp
  have c1 := conv _ _ h1
  have c2 := conv _ _ h2
  have c3 := conv _ _ h3
  have c4 := conv _ _ h4
  rw [List.countP_cons, List.countP_cons, List.countP_cons, List.countP_cons] at hchk
  simp only [List.countP_nil, c1, c2, c3, c4, if_true] at hchk
  norm_num at hchk

/-- `canPlow` at a corn cell implies all four 2x2 checks around the
carve pass. -/
theorem canPlow_checks (m : Maze) (x y : Int) (hcan : canPlow m x y = true)
    (hop : ¬ m.grid y x = 1) :
    ∀ x1 y1 : Int, (x1 = x - 1 ∨ x1 = x) → (y1 = y - 1 ∨ y1 = y) →
      check2x2Block m x y x1 y1 (x1 + 1) (y1 + 1) = true := by
  rw [canPlow] at hcan
  rw [if_neg (by simp [hop])] at hcan
  split at hcan
  · exact absurd hcan (by simp)
  · rw [Bool.and_eq_true, Bool.and_eq_true, Bool.and_eq_true] at hcan
    obtain ⟨⟨⟨c1, c2⟩, c3⟩, c4⟩ := hcan
    intro x1 y1 hx1 hy1
    have ex : x - 1 + 1 = x := by ring
    have ey : y - 1 + 1 = y := by ring
    rcases hx1 with rfl | rfl <;> rcases hy1 with rfl | rfl
    · rwa [ex, ey]
    · rwa [ex]
    · rwa [ey]
    · exact c4

theorem canPlow_preserves_no2x2 (m : Maze) (x y : Int)
    (h1 : No2x2Open m) (hcan : canPlow m x y = true) : No2x2Open (plow m x y) := by
  intro a b ha haw hb hbh hfull
  obtain ⟨g1, g2, g3, g4⟩ := hfull
  rw [plow_grid_eq_one] at g1 g2 g3 g4
  by_cases hop : m.grid y x = 1
  · apply h1 a b ha haw hb hbh
    have red : ∀ (gy gx : Int), ((gy = y ∧ gx = x) ∨ m.grid gy gx = 1) →
        m.grid gy gx = 1 := by
      rintro gy gx (⟨rfl, rfl⟩ | hg)
      · exact hop
      · exact hg
    exact ⟨red _ _ g1, red _ _ g2, red _ _ g3, red _ _ g4⟩
  · by_cases hin : (x = a ∨ x = a + 1) ∧ (y = b ∨ y = b + 1)
    · have hchk := canPlow_checks m x y hcan hop a b (by omega) (by omega)
      apply check2x2_not_full m x y a b ⟨ha, hb, haw, hbh⟩ hchk
      refine ⟨?_, ?_, ?_, ?_⟩ <;> tauto
    · apply h1 a b ha haw hb hbh
      have red : ∀ (gy gx : Int),
          (gy = b ∨ gy = b + 1) → (gx = a ∨ gx = a + 1) →
          ((gy = y ∧ gx = x) ∨ m.grid gy gx = 1) → m.grid gy gx = 1 := by
        rintro gy gx hgy hgx (⟨rfl, rfl⟩ | hg)
        · exact absurd ⟨by omega, by omega⟩ hin
        · exact hg
      exact ⟨red _ _ (Or.inl rfl) (Or.inl rfl) g1,
        red _ _ (Or.inl rfl) (Or.inr rfl) g2,
        red _ _ (Or.inr rfl) (Or.inl rfl) g3,
        red _ _ (Or.inr rfl) (Or.inr rfl) g4⟩

theorem canPlow_preserves_perimeterOK (m : Maze) (x y : Int) (h2 : PerimeterOK m)
    (hcan : canPlow m x y = true) : PerimeterOK (plow m x y) := by
  have hcount' : countPlowedPerimeterSquares (plow m x y) =
      (cellList m).countP (fun c => isOnPerimeter m c.1 c.2 &&
        (plow m x y).grid c.2 c.1 == 1) := rfl
  have hcount : countPlowedPerimeterSquares m =
      (cellList m).countP (fun c => isOnPerimeter m c.1 c.2 &&
        m.grid c.2 c.1 == 1) := rfl
  rw [PerimeterOK] at h2 ⊢
  rw [hcount']
  by_cases hop : m.grid y x = 1
  · rw [countP_congr_mem _ _ (cellList m) ?_]
    · rw [← hcount]
      exact h2
    · intro c hc
      by_cases hcxy : c.2 = y ∧ c.1 = x
      · have hgr : (plow m x y).grid c.2 c.1 = m.grid c.2 c.1 := by
          rw [plow]
          simp only
          rw [if_pos hcxy, hcxy.1, hcxy.2, hop]
        rw [hgr]
      · rw [plow_grid_eq_of_ne m x y c.2 c.1 hcxy]
  · rw [canPlow] at hcan
    rw [if_neg (by simp [hop])] at hcan
    split at hcan
    · exact absurd hcan (by simp)
    · rename_i hcond
      by_cases hper : isOnPerimeter m x y = true
      · have hcnt : countPlowedPerimeterSquares m ≤ 1 := by
          by_contra hc2
          apply hcond
          rw [hper]
          simp only [Bool.true_and, decide_eq_true_eq]
          omega
        have hexc := countP_le_with_exception (α := Int × Int) (x, y)
          (fun c => isOnPerimeter m c.1 c.2 && (plow m x y).grid c.2 c.1 == 1)
          (fun c => isOnPerimeter m c.1 c.2 && m.grid c.2 c.1 == 1)
          (cellList m) ?_
        · have hcnt1 := List.nodup_iff_count_le_one.mp (nodup_cellList m) (x, y)
          omega
        · intro c hc hcne hpc
          simp only at hpc ⊢
          have hgr : (plow m x y).grid c.2 c.1 = m.grid c.2 c.1 := by
            apply plow_grid_eq_of_ne
            rintro ⟨hh1, hh2⟩
            apply hcne
            rcases c with ⟨cc1, cc2⟩
            simp only at hh1 hh2
            rw [hh1, hh2]
          rwa [hgr] at hpc
      · rw [countP_congr_mem _ _ (cellList m) ?_]
        · rw [← hcount]
          exact h2
        · intro c hc
          by_cases hcxy : c.2 = y ∧ c.1 = x
          · have hcp : isOnPerimeter m c.1 c.2 = false := by
              rw [hcxy.1, hcxy.2]
              exact Bool.eq_false_iff.mpr hper
            rw [hcp]
            simp
          · rw [plow_grid_eq_of_ne m x y c.2 c.1 hcxy]

theorem initialMaze_no2x2 (w h : Int) : No2x2Open (initialMaze w h) := by
  intro a b ha haw hb hbh hfull
  obtain ⟨c1, c2, _, _⟩ := hfull
  rw [initialMaze] at c1 c2
  simp only at c1 c2
  split at c1
  · split at c2
    · omega
    · exact absurd c2 (by norm_num)
  · exact absurd c1 (by norm_num)

theorem initialMaze_perimeterOK (w h : Int) : PerimeterOK (initialMaze w h) := by
  rw [PerimeterOK]
  have hle := countP_le_count (α := Int × Int) (w / 2, h / 2)
    (fun c => isOnPerimeter (initialMaze w h) c.1 c.2 &&
      (initialMaze w h).grid c.2 c.1 == 1) (cellList (initialMaze w h)) ?_
  · have hcnt1 := List.nodup_iff_count_le_one.mp (nodup_cellList (initialMaze w h))
      (w / 2, h / 2)
    have hfold : countPlowedPerimeterSquares (initialMaze w h) =
        (cellList (initialMaze w h)).countP
          (fun c => isOnPerimeter (initialMaze w h) c.1 c.2 &&
            (initialMaze w h).grid c.2 c.1 == 1) := rfl
    omega
  · intro c hc hpc
    simp only [Bool.and_eq_true] at hpc
    have hg := hpc.2
    rw [beq_iff_eq] at hg
    rw [initialMaze] at hg
    simp only at hg
    split at hg
    · rename_i hcc
      rcases c with ⟨cc1, cc2⟩
      simp only at hcc
      rw [hcc.1, hcc.2]
    · exact absurd hg (by norm_num)

theorem carveStep_preserves (m : Maze) (c : Int × Int)
    (h1 : No2x2Open m) (h2 : PerimeterOK m) :
    No2x2Open (carveStep m c) ∧ PerimeterOK (carveStep m c) := by
  rw [carveStep]
  split
  · rename_i hcond
    exact ⟨canPlow_preserves_no2x2 m c.1 c.2 h1 hcond.2.2.2.2,
      canPlow_preserves_perimeterOK m c.1 c.2 h2 hcond.2.2.2.2⟩
  · exact ⟨h1, h2⟩

theorem carveSeq_preserves :
    ∀ (l : List (Int × Int)) (m : Maze), No2x2Open m → PerimeterOK m →
      No2x2Open (carveSeq m l) ∧ PerimeterOK (carveSeq m l) := by
  intro l
  induction l with
  | nil => exact fun m h1 h2 => ⟨h1, h2⟩
  | cons c rest ih =>
    intro m h1 h2
    rw [carveSeq]
    obtain ⟨h1', h2'⟩ := carveStep_preserves m c h1 h2
    exact ih (carveStep m c) h1' h2'

/-- C3: a `canPlow`-approved carve preserves both carving invariants
(no fully-open in-bounds 2x2 block; at most two open perimeter cells),
and hence every sequence of guarded carves from the initial
all-corn-but-origin grid maintains them. -/
theorem c3_carving_invariants :
    (∀ (m : Maze) (x y : Int), No2x2Open m → PerimeterOK m →
      canPlow m x y = true →
      No2x2Open (plow m x y) ∧ PerimeterOK (plow m x y)) ∧
    (∀ (w h : Int) (l : List (Int × Int)),
      No2x2Open (carveSeq (initialMaze w h) l) ∧
      PerimeterOK (carveSeq (initialMaze w h) l)) := by
  constructor
  · intro m x y h1 h2 hcan
    exact ⟨canPlow_preserves_no2x2 m x y h1 hcan,
      canPlow_preserves_perimeterOK m x y h2 hcan⟩
  · intro w h l
    exact carveSeq_preserves l (initialMaze w h) (initialMaze_no2x2 w h)
      (initialMaze_perimeterOK w h)

/-- C3 witness: carving (2,3) on the fresh 5x5 grid. -/
theorem c3_witness :
    No2x2Open (plow (initialMaze 5 5) 2 3) ∧
    PerimeterOK (plow (initialMaze 5 5) 2 3) :=
  c3_carving_invariants.1 (initialMaze 5 5) 2 3 (initialMaze_no2x2 5 5)
    (initialMaze_perimeterOK 5 5) (by decide)

/-! ## Path predicates: basic lemmas -/

theorem chain_reaches_aux (m : Maze) :
    ∀ (t : List Pos) (a b : Pos), List.Chain (adjStep m) a t →
      (a :: t).getLast? = some b → Reaches m a b := by
  intro t
  induction t with
  | nil =>
    intro a b _ hlast
    simp only [List.getLast?_singleton, Option.some.injEq] at hlast
    rw [← hlast]
    exact Relation.ReflTransGen.refl
  | cons c t ih =>
    intro a b hchain hlast
    rw [List.chain_cons] at hchain
    rw [List.getLast?_cons_cons] at hlast
    exact Relation.ReflTransGen.head hchain.1 (ih c b hchain.2 hlast)

theorem chain'_reaches (m : Maze) (l : List Pos) (a b : Pos)
    (hh : l.head? = some a) (hl : l.getLast? = some b)
    (hc : l.Chain' (adjStep m)) : Reaches m a b := by
  cases l with
  | nil => simp at hh
  | cons x t =>
    rw [List.head?_cons, Option.some.injEq] at hh
    subst hh
    exact chain_reaches_aux m t x b hc hl

theorem reaches_iff_path (m : Maze) (s f : Pos) (hs : openCell m s) :
    Reaches m s f ↔ ∃ l, IsOpenPath m s f l := by
  constructor
  · intro h
    induction h with
    | refl =>
      exact ⟨[s], by simp, by simp, by simp, by simp [List.chain'_singleton], hs⟩
    | @tail b c hab hbc ih =>
      obtain ⟨l, hne, hh, hl, hc, _⟩ := ih
      refine ⟨l ++ [c], by simp, ?_, by simp, ?_, hs⟩
      · rcases l with _ | ⟨x, t⟩
        · exact absurd rfl hne
        · rw [List.head?_cons] at hh
          rw [List.cons_append, List.head?_cons]
          exact hh
      · rw [List.chain'_append]
        refine ⟨hc, List.chain'_singleton c, ?_⟩
        intro x hx y hy
        simp only [List.head?_cons, Option.mem_def, Option.some.injEq] at hy
        rw [hl] at hx
        simp only [Option.mem_def, Option.some.injEq] at hx
        rw [← hx, ← hy]
        exact hbc
  · rintro ⟨l, hne, hh, hl, hc, _⟩
    exact chain'_reaches m l s f hh hl hc

/-! ## Cardinality bounds for the loop fuel -/

theorem length_le_cellCount (m : Maze) (l : List Pos) (hnd : l.Nodup)
    (hin : ∀ p ∈ l, inB m p) : l.length ≤ cellCount m := by
  classical
  have hmapnd : (l.map (fun p => (p.x, p.y))).Nodup := by
    apply List.Nodup.map ?_ hnd
    intro p q h
    rcases p with ⟨px, py⟩
    rcases q with ⟨qx, qy⟩
    simp only [Prod.mk.injEq] at h
    rw [Pos.mk.injEq]
    exact h
  have hsub : (l.map (fun p => (p.x, p.y))).toFinset ⊆
      Finset.Icc 0 (m.width - 1) ×ˢ Finset.Icc 0 (m.height - 1) := by
    intro c hc
    rw [List.mem_toFinset, List.mem_map] at hc
    obtain ⟨p, hp, rfl⟩ := hc
    have := hin p hp
    rw [inB] at this
    rw [Finset.mem_product, Finset.mem_Icc, Finset.mem_Icc]
    omega
  have hcard := Finset.card_le_card hsub
  rw [List.toFinset_card_of_nodup hmapnd, List.length_map] at hcard
  rw [Finset.card_product, Int.card_Icc, Int.card_Icc] at hcard
  calc l.length ≤ (m.width - 1 + 1 - 0).toNat * (m.height - 1 + 1 - 0).toNat := hcard
  _ = cellCount m := by
      rw [cellCount]
      congr 1 <;> omega

theorem length_le_filter_ne_add_one {α : Type} [DecidableEq α] (a : α) :
    ∀ l : List α, l.Nodup → l.length ≤ (l.filter (fun x => x ≠ a)).length + 1 := by
  intro l
  induction l with
  | nil => intro _; simp
  | cons c t ih =>
    intro hnd
    rw [List.nodup_cons] at hnd
    by_cases hca : c = a
    · subst hca
      have hft : t.filter (fun x => x ≠ c) = t := by
        apply List.filter_eq_self.mpr
        intro x hx
        simp only [ne_eq, decide_eq_true_eq]
        intro hxc
        exact hnd.1 (hxc ▸ hx)
      have hstep : (c :: t).filter (fun x => x ≠ c) = t := by
        rw [List.filter_cons]
        simp [hft]
        intro a ha hac
        exact hnd.1 (hac ▸ ha)
      rw [hstep]
      simp only [List.length_cons]
      omega
    · have hstep : (c :: t).filter (fun x => x ≠ a) =
          c :: t.filter (fun x => x ≠ a) := by
        rw [List.filter_cons]
        simp [hca]
      rw [hstep]
      have := ih hnd.2
      simp only [List.length_cons]
      omega

theorem length_le_cellCount_succ (m : Maze) (s : Pos) (l : List Pos) (hnd : l.Nodup)
    (hin : ∀ p ∈ l, p = s ∨ inB m p) : l.length ≤ cellCount m + 1 := by
  have h1 := length_le_filter_ne_add_one s l hnd
  have h2 : (l.filter (fun x => x ≠ s)).length ≤ cellCount m := by
    apply length_le_cellCount m _ (List.Nodup.filter _ hnd)
    intro p hp
    have hmem := List.mem_filter.mp hp
    rcases hin p hmem.1 with rfl | hb
    · exfalso
      have := hmem.2
      simp at this
    · exact hb
  omega

/-! ## Generic list helpers for the search proofs -/

theorem nodup_get?_inj {α : Type} (l : List α) (hnd : l.Nodup) (i j : ℕ) (a : α)
    (hi : l.get? i = some a) (hj : l.get? j = some a) : i = j := by
  obtain ⟨hi1, hi2⟩ := List.get?_eq_some.mp hi
  obtain ⟨hj1, hj2⟩ := List.get?_eq_some.mp hj
  have : (⟨i, hi1⟩ : Fin l.length) = ⟨j, hj1⟩ := by
    apply List.nodup_iff_injective_get.mp hnd
    rw [hi2, hj2]
  exact congrArg Fin.val this

theorem mem_foldl_append {α β : Type} (g : β → List α) :
    ∀ (ds : List β) (acc : List α) (q : α),
      (q ∈ ds.foldl (fun a d => a ++ g d) acc) ↔ q ∈ acc ∨ ∃ d ∈ ds, q ∈ g d := by
  intro ds
  induction ds with
  | nil => intro acc q; simp
  | cons d ds ih =>
    intro acc q
    rw [List.foldl_cons, ih]
    rw [List.mem_append]
    constructor
    · rintro ((h | h) | ⟨d', hd', hq⟩)
      · exact Or.inl h
      · exact Or.inr ⟨d, List.mem_cons_self _ _, h⟩
      · exact Or.inr ⟨d', List.mem_cons_of_mem _ hd', hq⟩
    · rintro (h | ⟨d', hd', hq⟩)
      · exact Or.inl (Or.inl h)
      · rcases List.mem_cons.mp hd' with rfl | hd''
        · exact Or.inl (Or.inr hq)
        · exact Or.inr ⟨d', hd'', hq⟩

theorem foldl_longest_spec :
    ∀ (rest : List (List Pos)) (p : List Pos),
      (rest.foldl (fun longest current =>
        if longest.length < current.length then current else longest) p) ∈ p :: rest ∧
      ∀ q ∈ p :: rest, q.length ≤ (rest.foldl (fun longest current =>
        if longest.length < current.length then current else longest) p).length := by
  intro rest
  induction rest with
  | nil =>
    intro p
    constructor
    · simp
    · intro q hq
      simp only [List.foldl_nil]
      simp at hq
      rw [hq]
  | cons c rest ih =>
    intro p
    rw [List.foldl_cons]
    by_cases hlt : p.length < c.length
    · rw [if_pos hlt]
      obtain ⟨hmem, hle⟩ := ih c
      constructor
      · rcases List.mem_cons.mp hmem with h | h
        · rw [h]
          simp
        · exact List.mem_cons_of_mem _ (List.mem_cons_of_mem _ h)
      · intro q hq
        rcases List.mem_cons.mp hq with rfl | hq2
        · exact le_trans (le_of_lt hlt) (hle c (List.mem_cons_self _ _))
        · rcases List.mem_cons.mp hq2 with rfl | hq3
          · exact hle q (List.mem_cons_self _ _)
          · exact hle q (List.mem_cons_of_mem _ hq3)
    · rw [if_neg hlt]
      obtain ⟨hmem, hle⟩ := ih p
      constructor
      · rcases List.mem_cons.mp hmem with h | h
        · rw [h]
          simp
        · exact List.mem_cons_of_mem _ (List.mem_cons_of_mem _ h)
      · intro q hq
        rcases List.mem_cons.mp hq with rfl | hq2
        · exact hle q (List.mem_cons_self _ _)
        · rcases List.mem_cons.mp hq2 with rfl | hq3
          · exact le_trans (le_of_not_lt hlt) (hle p (List.mem_cons_self _ _))
          · exact hle q (List.mem_cons_of_mem _ hq3)

/-! ## The BFS neighbor expansion -/

theorem bfsExpand_eq_pos (m : Maze) (c : Pos) (st : BfsState) (d : Int × Int)
    (hg : openCell m ⟨c.x + d.1, c.y + d.2⟩ ∧
      ¬ (⟨c.x + d.1, c.y + d.2⟩ : Pos) ∈ st.visited) :
    bfsExpand m c st d = ⟨st.queue ++ [⟨c.x + d.1, c.y + d.2⟩],
      st.visited ++ [⟨c.x + d.1, c.y + d.2⟩],
      fun p => if p = ⟨c.x + d.1, c.y + d.2⟩ then some c else st.parent p⟩ := by
  obtain ⟨⟨⟨hx1, hx2, hy1, hy2⟩, hgrid⟩, hnv⟩ := hg
  rw [bfsExpand]
  simp only
  rw [if_pos ⟨hx1, hx2, hy1, hy2, hgrid, hnv⟩]

theorem bfsExpand_eq_neg (m : Maze) (c : Pos) (st : BfsState) (d : Int × Int)
    (hg : ¬ (openCell m ⟨c.x + d.1, c.y + d.2⟩ ∧
      ¬ (⟨c.x + d.1, c.y + d.2⟩ : Pos) ∈ st.visited)) :
    bfsExpand m c st d = st := by
  rw [bfsExpand]
  simp only
  rw [if_neg]
  intro ⟨hx1, hx2, hy1, hy2, hgrid, hnv⟩
  exact hg ⟨⟨⟨hx1, hx2, hy1, hy2⟩, hgrid⟩, hnv⟩

theorem bfsExpand_foldl_spec (m : Maze) (c : Pos) :
    ∀ (ds : List (Int × Int)) (st : BfsState),
      ∃ new : List Pos,
        (ds.foldl (bfsExpand m c) st).queue = st.queue ++ new ∧
        (ds.foldl (bfsExpand m c) st).visited = st.visited ++ new ∧
        new.Nodup ∧
        (∀ p ∈ new, ¬ p ∈ st.visited ∧ openCell m p ∧
          ∃ d ∈ ds, p.x = c.x + d.1 ∧ p.y = c.y + d.2) ∧
        (∀ p ∈ new, (ds.foldl (bfsExpand m c) st).parent p = some c) ∧
        (∀ p, ¬ p ∈ new → (ds.foldl (bfsExpand m c) st).parent p = st.parent p) ∧
        (∀ d ∈ ds, ∀ n : Pos, n.x = c.x + d.1 → n.y = c.y + d.2 → openCell m n →
          n ∈ (ds.foldl (bfsExpand m c) st).visited) := by
  intro ds
  induction ds with
  | nil =>
    intro st
    refine ⟨[], by simp, by simp, by simp, by simp, by simp, fun p _ => rfl, by simp⟩
  | cons d ds ih =>
    intro st
    rw [List.foldl_cons]
    by_cases hg : openCell m ⟨c.x + d.1, c.y + d.2⟩ ∧
        ¬ (⟨c.x + d.1, c.y + d.2⟩ : Pos) ∈ st.visited
    · rw [bfsExpand_eq_pos m c st d hg]
      obtain ⟨new', hq, hv, hnd, hprops, hpar, hpres, hcov⟩ :=
        ih ⟨st.queue ++ [⟨c.x + d.1, c.y + d.2⟩],
          st.visited ++ [⟨c.x + d.1, c.y + d.2⟩],
          fun p => if p = ⟨c.x + d.1, c.y + d.2⟩ then some c else st.parent p⟩
      simp only at hq hv hnd hprops hpar hpres hcov
      have hn_not_new : ¬ (⟨c.x + d.1, c.y + d.2⟩ : Pos) ∈ new' := by
        intro hmem
        exact (hprops _ hmem).1 (by simp)
      refine ⟨⟨c.x + d.1, c.y + d.2⟩ :: new', ?_, ?_, ?_, ?_, ?_, ?_, ?_⟩
      · rw [hq, List.append_assoc]
        rfl
      · rw [hv, List.append_assoc]
        rfl
      · rw [List.nodup_cons]
        exact ⟨hn_not_new, hnd⟩
      · intro p hp
        rcases List.mem_cons.mp hp with rfl | hp'
        · exact ⟨hg.2, hg.1, d, List.mem_cons_self _ _, rfl, rfl⟩
        · obtain ⟨hnv, hoc, d', hd', hco⟩ := hprops p hp'
          refine ⟨?_, hoc, d', List.mem_cons_of_mem _ hd', hco⟩
          intro hmem
          exact hnv (List.mem_append_left _ hmem)
      · intro p hp
        rcases List.mem_cons.mp hp with rfl | hp'
        · rw [hpres _ hn_not_new]
          simp
        · exact hpar p hp'
      · intro p hp
        have hp1 : ¬ p ∈ new' := fun hh => hp (List.mem_cons_of_mem _ hh)
        have hp2 : p ≠ ⟨c.x + d.1, c.y + d.2⟩ := fun hh => hp (hh ▸ List.mem_cons_self _ _)
        rw [hpres p hp1]
        simp only [if_neg hp2]
      · intro d' hd' n hnx hny hoc
        rcases List.mem_cons.mp hd' with rfl | hd''
        · have hn : n = ⟨c.x + d'.1, c.y + d'.2⟩ := by
            rcases n with ⟨nx, ny⟩
            simp only at hnx hny
            rw [hnx, hny]
          rw [hv, hn]
          exact List.mem_append_left _ (List.mem_append_right _ (by simp))
        · exact hcov d' hd'' n hnx hny hoc
    · rw [bfsExpand_eq_neg m c st d hg]
      obtain ⟨new', hq, hv, hnd, hprops, hpar, hpres, hcov⟩ := ih st
      refine ⟨new', hq, hv, hnd, ?_, hpar, hpres, ?_⟩
      · intro p hp
        obtain ⟨hnv, hoc, d', hd', hco⟩ := hprops p hp
        exact ⟨hnv, hoc, d', List.mem_cons_of_mem _ hd', hco⟩
      · intro d' hd' n hnx hny hoc
        rcases List.mem_cons.mp hd' with rfl | hd''
        · have hn : n = ⟨c.x + d'.1, c.y + d'.2⟩ := by
            rcases n with ⟨nx, ny⟩
            simp only at hnx hny
            rw [hnx, hny]
          have hnv : n ∈ st.visited := by
            by_contra hcon
            exact hg ⟨hn ▸ hoc, hn ▸ hcon⟩
          rw [hv]
          exact List.mem_append_left _ hnv
        · exact hcov d' hd'' n hnx hny hoc

/-! ## The BFS invariant is preserved -/

theorem bfsInv_step (m : Maze) (s f : Pos) (st : BfsState) (hInv : BfsInv m s f st)
    (c : Pos) (rest : List Pos) (hq : st.queue = c :: rest) (hcf : c ≠ f) :
    BfsInv m s f (neighborDirs.foldl (bfsExpand m c) ⟨rest, st.visited, st.parent⟩) := by
  obtain ⟨new, hq', hv', hnd', hprops, hpar, hpres, hcov⟩ :=
    bfsExpand_foldl_spec m c neighborDirs ⟨rest, st.visited, st.parent⟩
  simp only at hq' hv' hprops hpar hpres hcov
  have hcvis : c ∈ st.visited := hInv.qsub c (by rw [hq]; exact List.mem_cons_self _ _)
  constructor
  case nodup =>
    rw [hv', List.nodup_append]
    refine ⟨hInv.nodup, hnd', ?_⟩
    intro a ha1 ha2
    exact (hprops a ha2).1 ha1
  case qsub =>
    intro p hp
    rw [hq'] at hp
    rw [hv']
    rcases List.mem_append.mp hp with hp | hp
    · exact List.mem_append_left _ (hInv.qsub p (by rw [hq]; exact List.mem_cons_of_mem _ hp))
    · exact List.mem_append_right _ hp
  case svis =>
    rw [hv']
    exact List.mem_append_left _ hInv.svis
  case vin =>
    intro p hp
    rw [hv'] at hp
    rcases List.mem_append.mp hp with hp | hp
    · exact hInv.vin p hp
    · exact Or.inr (hprops p hp).2.1
  case pspec =>
    intro p q hpq
    by_cases hpnew : p ∈ new
    · have hpc := hpar p hpnew
      rw [hpc, Option.some.injEq] at hpq
      subst hpq
      obtain ⟨hnv, hoc, d, hd, hx, hy⟩ := hprops p hpnew
      refine ⟨⟨hoc, d, hd, hx, hy⟩, ?_⟩
      obtain ⟨i, hi⟩ := List.mem_iff_get?.mp hcvis
      obtain ⟨k, hk⟩ := List.mem_iff_get?.mp hpnew
      have hilen := (List.get?_eq_some.mp hi).1
      refine ⟨i, st.visited.length + k, by omega, ?_, ?_⟩
      · rw [hv', List.get?_append hilen]
        exact hi
      · rw [hv', List.get?_append_right (by omega)]
        simpa using hk
    · rw [hpres p hpnew] at hpq
      obtain ⟨hadj, i, j, hij, hi, hj⟩ := hInv.pspec p q hpq
      have hilen := (List.get?_eq_some.mp hi).1
      have hjlen := (List.get?_eq_some.mp hj).1
      refine ⟨hadj, i, j, hij, ?_, ?_⟩
      · rw [hv', List.get?_append hilen]
        exact hi
      · rw [hv', List.get?_append hjlen]
        exact hj
  case pdom =>
    intro p hp hps
    by_cases hpnew : p ∈ new
    · rw [hpar p hpnew]
      simp
    · rw [hpres p hpnew]
      rw [hv'] at hp
      rcases List.mem_append.mp hp with hp | hp
      · exact hInv.pdom p hp hps
      · exact absurd hp hpnew
  case processed =>
    intro p hp
    rw [hv'] at hp
    rcases List.mem_append.mp hp with hp | hp
    · rcases hInv.processed p hp with hpq | hcl
      · rw [hq] at hpq
        rcases List.mem_cons.mp hpq with rfl | hpr
        · refine Or.inr ?_
          rintro q ⟨hoc, d, hd, hx, hy⟩
          exact hcov d hd q hx hy hoc
        · refine Or.inl ?_
          rw [hq']
          exact List.mem_append_left _ hpr
      · refine Or.inr ?_
        intro q hadj
        rw [hv']
        exact List.mem_append_left _ (hcl q hadj)
    · refine Or.inl ?_
      rw [hq']
      exact List.mem_append_right _ hp
  case fqueue =>
    intro hf
    rw [hv'] at hf
    rw [hq']
    rcases List.mem_append.mp hf with hf | hf
    · have := hInv.fqueue hf
      rw [hq] at this
      rcases List.mem_cons.mp this with rfl | hfr
      · exact absurd rfl hcf
      · exact List.mem_append_left _ hfr
    · exact List.mem_append_right _ hf

/-! ## Parent-chain reconstruction builds an open path from the start -/

theorem reconstruct_ok (m : Maze) (s f : Pos) (st : BfsState) (hInv : BfsInv m s f st) :
    ∀ (j : ℕ) (p : Pos), st.visited.get? j = some p →
      ∀ (fuel : ℕ), j < fuel → ∀ (acc : List Pos),
        ∃ l, reconstructAux st.parent fuel p acc = l ++ acc ∧
          l ≠ [] ∧ l.head? = some s ∧ l.getLast? = some p ∧ l.Chain' (adjStep m) ∧
          l.Nodup ∧ (∀ x ∈ l, ∃ k, k ≤ j ∧ st.visited.get? k = some x) := by
  intro j
  induction j using Nat.strong_induction_on with
  | _ j ih =>
    intro p hj fuel hfuel acc
    rcases fuel with _ | fuel
    · omega
    cases hpar : st.parent p with
    | none =>
      have hps : p = s := by
        by_contra hne
        exact hInv.pdom p (List.mem_iff_get?.mpr ⟨j, hj⟩) hne hpar
      have hred : reconstructAux st.parent (fuel + 1) p acc = p :: acc := by
        rw [reconstructAux, hpar]
      refine ⟨[p], by rw [hred]; rfl, by simp, by simp [hps], by simp, by simp, by simp, ?_⟩
      intro x hx
      simp only [List.mem_singleton] at hx
      subst hx
      exact ⟨j, le_refl j, hj⟩
    | some q =>
      obtain ⟨hadj, i, j', hij, hi, hj'⟩ := hInv.pspec p q hpar
      have hj'j : j' = j := nodup_get?_inj _ hInv.nodup _ _ _ hj' hj
      subst hj'j
      obtain ⟨l', hrec, hne', hh', hl', hc', hnd'', hmem'⟩ :=
        ih i hij q hi fuel (by omega) (p :: acc)
      have hred : reconstructAux st.parent (fuel + 1) p acc =
          reconstructAux st.parent fuel q (p :: acc) := by
        rw [reconstructAux, hpar]
      have hp_not_l' : ¬ p ∈ l' := by
        intro hp
        obtain ⟨k, hk, hkeq⟩ := hmem' p hp
        have hkj := nodup_get?_inj _ hInv.nodup _ _ _ hkeq hj
        omega
      refine ⟨l' ++ [p], ?_, by simp, ?_, by rw [List.getLast?_concat], ?_, ?_, ?_⟩
      · rw [hred, hrec, List.append_cons]
      · rcases l' with _ | ⟨a, t⟩
        · exact absurd rfl hne'
        · rw [List.cons_append, List.head?_cons]
          rw [List.head?_cons] at hh'
          exact hh'
      · rw [List.chain'_append]
        refine ⟨hc', by simp, ?_⟩
        intro x hx y hy
        rw [hl'] at hx
        simp only [List.head?_cons, Option.mem_def, Option.some.injEq] at hx hy
        rw [← hx, ← hy]
        exact hadj
      · rw [List.nodup_append]
        refine ⟨hnd'', by simp, ?_⟩
        intro a ha1 ha2
        simp only [List.mem_singleton] at ha2
        subst ha2
        exact hp_not_l' ha1
      · intro x hx
        rcases List.mem_append.mp hx with hx | hx
        · obtain ⟨k, hk, hkeq⟩ := hmem' x hx
          exact ⟨k, by omega, hkeq⟩
        · simp only [List.mem_singleton] at hx
          subst hx
          exact ⟨_, le_refl _, hj⟩

/-! ## The BFS loop: soundness, completeness and termination -/

theorem bfsLoop_some_spec (m : Maze) (s f : Pos) :
    ∀ (fuel : ℕ) (st : BfsState), BfsInv m s f st →
      ∀ p, bfsLoop m f fuel st = some (some p) →
        p ≠ [] ∧ p.head? = some s ∧ p.getLast? = some f ∧
        p.Chain' (adjStep m) ∧ p.Nodup := by
  intro fuel
  induction fuel with
  | zero =>
    intro st _ p h
    rw [bfsLoop] at h
    exact absurd h (by simp)
  | succ fuel ihf =>
    intro st hInv p h
    rw [bfsLoop] at h
    rcases hq : st.queue with _ | ⟨c, rest⟩
    · rw [hq] at h
      simp at h
    · rw [hq] at h
      simp only at h
      split at h
      · rename_i hcf
        rw [Option.some.injEq, Option.some.injEq] at h
        have hcvis : c ∈ st.visited := hInv.qsub c (by rw [hq]; exact List.mem_cons_self _ _)
        obtain ⟨j, hj⟩ := List.mem_iff_get?.mp hcvis
        have hjlen := (List.get?_eq_some.mp hj).1
        obtain ⟨l, hrec, hne, hh, hl, hc, hnd, _⟩ :=
          reconstruct_ok m s f st hInv j c hj (st.visited.length + 1) (by omega) []
        rw [List.append_nil] at hrec
        rw [← h, hrec]
        exact ⟨hne, hh, by rw [hl, hcf], hc, hnd⟩
      · rename_i hcf
        exact ihf _ (bfsInv_step m s f st hInv c rest hq hcf) p h

theorem bfsLoop_none_spec (m : Maze) (s f : Pos) :
    ∀ (fuel : ℕ) (st : BfsState), BfsInv m s f st →
      bfsLoop m f fuel st = some none → ¬ Reaches m s f := by
  intro fuel
  induction fuel with
  | zero =>
    intro st _ h
    rw [bfsLoop] at h
    exact absurd h (by simp)
  | succ fuel ihf =>
    intro st hInv h
    rw [bfsLoop] at h
    rcases hq : st.queue with _ | ⟨c, rest⟩
    · rw [hq] at h
      have hcl : ∀ p ∈ st.visited, ∀ q, adjStep m p q → q ∈ st.visited := by
        intro p hp q hadj
        rcases hInv.processed p hp with hpq | hcl2
        · rw [hq] at hpq
          simp at hpq
        · exact hcl2 q hadj
      intro hreach
      have hfvis : ∀ x, Reaches m s x → x ∈ st.visited := by
        intro x hx
        induction hx with
        | refl => exact hInv.svis
        | tail hab hbc ihh => exact hcl _ ihh _ hbc
      have := hInv.fqueue (hfvis f hreach)
      rw [hq] at this
      simp at this
    · rw [hq] at h
      simp only at h
      split at h
      · simp at h
      · rename_i hcf
        exact ihf _ (bfsInv_step m s f st hInv c rest hq hcf) h

theorem bfsLoop_ne_none (m : Maze) (s f : Pos) :
    ∀ (fuel : ℕ) (st : BfsState), BfsInv m s f st → bfsMeasure m st < fuel →
      bfsLoop m f fuel st ≠ none := by
  intro fuel
  induction fuel with
  | zero =>
    intro st _ hm
    omega
  | succ fuel ihf =>
    intro st hInv hm
    rw [bfsLoop]
    rcases hq : st.queue with _ | ⟨c, rest⟩
    · simp
    · simp only
      split
    -- popped the finish: returns a path
      · simp
      · rename_i hcf
        apply ihf _ (bfsInv_step m s f st hInv c rest hq hcf)
        obtain ⟨new, hq', hv', hnd', hprops, _, _, _⟩ :=
          bfsExpand_foldl_spec m c neighborDirs ⟨rest, st.visited, st.parent⟩
        simp only at hq' hv' hprops
        have hnodup' : (st.visited ++ new).Nodup := by
          rw [List.nodup_append]
          refine ⟨hInv.nodup, hnd', ?_⟩
          intro a ha1 ha2
          exact (hprops a ha2).1 ha1
        have hbound : (st.visited ++ new).length ≤ cellCount m + 1 := by
          apply length_le_cellCount_succ m s _ hnodup'
          intro p hp
          rcases List.mem_append.mp hp with hp | hp
          · rcases hInv.vin p hp with rfl | hoc
            · exact Or.inl rfl
            · exact Or.inr hoc.1
          · exact Or.inr (hprops p hp).2.1.1
        simp only [bfsMeasure] at hm ⊢
        rw [hq', hv']
        rw [hq] at hm
        simp only [List.length_append, List.length_cons] at hm hbound ⊢
        omega

/-! ## Top-level `findShortestPath` characterisation -/

theorem bfsInv_init (m : Maze) (s f : Pos) :
    BfsInv m s f ⟨[s], [s], fun _ => none⟩ := by
  constructor
  case nodup => simp
  case qsub => intro p hp; exact hp
  case svis => simp
  case vin =>
    intro p hp
    simp only [List.mem_singleton] at hp
    exact Or.inl hp
  case pspec => intro p q h; simp at h
  case pdom =>
    intro p hp hps
    simp only [List.mem_singleton] at hp
    exact absurd hp hps
  case processed => intro p hp; exact Or.inl hp
  case fqueue => intro hf; exact hf

theorem findShortestPath_some_spec (m : Maze) (s f : Pos) (p : List Pos)
    (h : findShortestPath s f m = some p) :
    p ≠ [] ∧ p.head? = some s ∧ p.getLast? = some f ∧
    p.Chain' (adjStep m) ∧ p.Nodup := by
  rw [findShortestPath] at h
  rcases hb : bfsLoop m f (bfsFuel m) ⟨[s], [s], fun _ => none⟩ with _ | o
  · exact absurd hb (bfsLoop_ne_none m s f (bfsFuel m) _ (bfsInv_init m s f)
      (by simp only [bfsMeasure, bfsFuel, List.length_singleton]; omega))
  · rcases o with _ | q
    · rw [hb] at h
      simp at h
    · rw [hb] at h
      simp only [Option.getD_some, Option.some.injEq] at h
      subst h
      exact bfsLoop_some_spec m s f (bfsFuel m) _ (bfsInv_init m s f) q hb

theorem findShortestPath_none_iff (m : Maze) (s f : Pos) :
    findShortestPath s f m = none ↔ ¬ Reaches m s f := by
  constructor
  · intro h
    rw [findShortestPath] at h
    rcases hb : bfsLoop m f (bfsFuel m) ⟨[s], [s], fun _ => none⟩ with _ | o
    · exact absurd hb (bfsLoop_ne_none m s f (bfsFuel m) _ (bfsInv_init m s f)
        (by simp only [bfsMeasure, bfsFuel, List.length_singleton]; omega))
    · rcases o with _ | q
      · exact bfsLoop_none_spec m s f (bfsFuel m) _ (bfsInv_init m s f) hb
      · rw [hb] at h
        simp at h
  · intro hnr
    rcases hfs : findShortestPath s f m with _ | p
    · rfl
    · obtain ⟨hne, hh, hl, hc, _⟩ := findShortestPath_some_spec m s f p hfs
      exact absurd (chain'_reaches m p s f hh hl hc) hnr

/-! ## The exhaustive DFS of `findLongestPath` -/

theorem mem_of_getLast?_eq {α : Type} {l : List α} {a : α}
    (h : l.getLast? = some a) : a ∈ l := by
  obtain ⟨hne, heq⟩ := List.mem_getLast?_eq_getLast (Option.mem_def.mpr h)
  rw [heq]
  exact List.getLast_mem hne

theorem dfsAux_sound (m : Maze) (f : Pos) :
    ∀ (fuel : ℕ) (x y : Int) (path visited : List Pos) (r : List Pos),
      path.getLast? = some ⟨x, y⟩ →
      r ∈ dfsAux m f fuel x y path visited →
      ∃ ext, r = path ++ ext ∧ r.getLast? = some f ∧
        List.Chain (adjStep m) ⟨x, y⟩ ext := by
  intro fuel
  induction fuel with
  | zero =>
    intro x y path visited r _ hr
    rw [dfsAux] at hr
    simp at hr
  | succ fuel ih =>
    intro x y path visited r hpl hr
    rw [dfsAux] at hr
    split at hr
    · rename_i hfin
      simp only [List.mem_singleton] at hr
      subst hr
      have hxy : (⟨x, y⟩ : Pos) = f := by
        rcases f with ⟨fx, fy⟩
        simp only at hfin
        rw [hfin.1, hfin.2]
      refine ⟨[], (List.append_nil _).symm, ?_, List.Chain.nil⟩
      rw [hpl, hxy]
    · have h' := (mem_foldl_append
        (fun d => if 0 ≤ x + d.1 ∧ x + d.1 < m.width ∧ 0 ≤ y + d.2 ∧
              y + d.2 < m.height ∧ m.grid (y + d.2) (x + d.1) = 1 ∧
              ¬ (⟨x + d.1, y + d.2⟩ : Pos) ∈ visited then
            dfsAux m f fuel (x + d.1) (y + d.2) (path ++ [⟨x + d.1, y + d.2⟩])
              (visited ++ [⟨x + d.1, y + d.2⟩])
          else []) neighborDirs [] r).mp hr
      rcases h' with h' | ⟨d, hd, hrd⟩
      · simp at h'
      · split at hrd
        · rename_i hcond
          obtain ⟨ext', hre, hrl, hrc⟩ := ih (x + d.1) (y + d.2)
            (path ++ [⟨x + d.1, y + d.2⟩]) (visited ++ [⟨x + d.1, y + d.2⟩]) r
            (by rw [List.getLast?_concat]) hrd
          refine ⟨⟨x + d.1, y + d.2⟩ :: ext',
            by rw [hre, List.append_cons path ⟨x + d.1, y + d.2⟩ ext'], hrl, ?_⟩
          refine List.Chain.cons ?_ hrc
          exact ⟨⟨⟨hcond.1, hcond.2.1, hcond.2.2.1, hcond.2.2.2.1⟩, hcond.2.2.2.2.1⟩,
            d, hd, rfl, rfl⟩
        · simp at hrd

theorem dfsAux_complete (m : Maze) (f : Pos) :
    ∀ (fuel : ℕ) (cont : List Pos) (x y : Int) (path visited : List Pos),
      cont.length < fuel →
      List.Chain (adjStep m) ⟨x, y⟩ cont →
      ((⟨x, y⟩ : Pos) :: cont).Nodup →
      (∀ p ∈ cont, ¬ p ∈ visited) →
      ((⟨x, y⟩ : Pos) :: cont).getLast? = some f →
      (path ++ cont) ∈ dfsAux m f fuel x y path visited := by
  intro fuel
  induction fuel with
  | zero =>
    intro cont x y path visited hlen
    omega
  | succ fuel ih =>
    intro cont x y path visited hlen hchain hnd hfresh hlast
    rw [dfsAux]
    rcases cont with _ | ⟨n, cont'⟩
    · have hxy : (⟨x, y⟩ : Pos) = f := by
        simp only [List.getLast?_singleton, Option.some.injEq] at hlast
        exact hlast
      rw [if_pos ?_]
      · simp
      · rw [← hxy]
        exact ⟨rfl, rfl⟩
    · have hnotfin : ¬ (x = f.x ∧ y = f.y) := by
        intro hfin
        have hxy : (⟨x, y⟩ : Pos) = f := by
          rcases f with ⟨fx, fy⟩
          simp only at hfin
          rw [hfin.1, hfin.2]
        have hfmem : f ∈ n :: cont' := by
          rw [List.getLast?_cons_cons] at hlast
          exact mem_of_getLast?_eq hlast
        rw [List.nodup_cons] at hnd
        exact hnd.1 (hxy ▸ hfmem)
      rw [if_neg hnotfin]
      cases hchain with
      | cons hadj hchain' =>
        obtain ⟨hopen, d, hd, hnx, hny⟩ := hadj
        have hn : (⟨x + d.1, y + d.2⟩ : Pos) = n := by
          rw [← hnx, ← hny]
        have hncont' : ¬ n ∈ cont' := by
          rw [List.nodup_cons, List.nodup_cons] at hnd
          exact hnd.2.1
        refine (mem_foldl_append
          (fun d => if 0 ≤ x + d.1 ∧ x + d.1 < m.width ∧ 0 ≤ y + d.2 ∧
                y + d.2 < m.height ∧ m.grid (y + d.2) (x + d.1) = 1 ∧
                ¬ (⟨x + d.1, y + d.2⟩ : Pos) ∈ visited then
              dfsAux m f fuel (x + d.1) (y + d.2) (path ++ [⟨x + d.1, y + d.2⟩])
                (visited ++ [⟨x + d.1, y + d.2⟩])
            else []) neighborDirs [] (path ++ n :: cont')).mpr
          (Or.inr ⟨d, hd, ?_⟩)
        have hcond : 0 ≤ x + d.1 ∧ x + d.1 < m.width ∧ 0 ≤ y + d.2 ∧
            y + d.2 < m.height ∧ m.grid (y + d.2) (x + d.1) = 1 ∧
            ¬ (⟨x + d.1, y + d.2⟩ : Pos) ∈ visited := by
          rw [hn] at *
          obtain ⟨⟨hb1, hb2, hb3, hb4⟩, hg⟩ := hopen
          rw [← hnx, ← hny]
          exact ⟨hb1, hb2, hb3, hb4, hg, hfresh n (List.mem_cons_self _ _)⟩
        rw [if_pos hcond, hn, List.append_cons path n cont']
        have hfresh' : ∀ p ∈ cont', ¬ p ∈ visited ++ [n] := by
          intro p hp hmem
          rcases List.mem_append.mp hmem with hmem | hmem
          · exact hfresh p (List.mem_cons_of_mem _ hp) hmem
          · simp only [List.mem_singleton] at hmem
            subst hmem
            exact hncont' hp
        have hlast' : ((⟨n.x, n.y⟩ : Pos) :: cont').getLast? = some f := by
          rw [List.getLast?_cons_cons] at hlast
          rcases cont' with _ | ⟨c, t⟩
          · exact hlast
          · rw [List.getLast?_cons_cons]
            rw [List.getLast?_cons_cons] at hlast
            exact hlast
        have hlen' : cont'.length < fuel := by
          simp only [List.length_cons] at hlen
          omega
        rw [← hnx, ← hny]
        exact ih cont' n.x n.y (path ++ [n]) (visited ++ [n]) hlen' hchain'
          ((List.nodup_cons.mp hnd).2) hfresh' hlast'

/-! ## Connecting the BFS path to the DFS enumeration -/

theorem chain_targets_open (m : Maze) :
    ∀ (l : List Pos) (a : Pos), List.Chain (adjStep m) a l →
      ∀ q ∈ l, openCell m q := by
  intro l
  induction l with
  | nil =>
    intro a _ q hq
    simp at hq
  | cons b t ih =>
    intro a hch q hq
    cases hch with
    | cons hab hbt =>
      rcases List.mem_cons.mp hq with rfl | hq
      · exact hab.1
      · exact ih b hbt q hq

theorem shortest_mem_dfs (m : Maze) (s f : Pos) (p : List Pos)
    (h : findShortestPath s f m = some p) :
    p ∈ dfsAux m f (dfsFuel m) s.x s.y [s] [s] := by
  obtain ⟨hne, hh, hl, hc, hnd⟩ := findShortestPath_some_spec m s f p h
  rcases p with _ | ⟨a, cont⟩
  · exact absurd rfl hne
  · rw [List.head?_cons, Option.some.injEq] at hh
    subst hh
    have hch : List.Chain (adjStep m) a cont := hc
    have hlen : cont.length < dfsFuel m := by
      have hmem : ∀ q ∈ a :: cont, q = a ∨ inB m q := by
        intro q hq
        rcases List.mem_cons.mp hq with rfl | hq
        · exact Or.inl rfl
        · exact Or.inr (chain_targets_open m cont a hch q hq).1
      have := length_le_cellCount_succ m a (a :: cont) hnd hmem
      simp only [List.length_cons] at this
      rw [dfsFuel]
      omega
    have hfresh : ∀ q ∈ cont, ¬ q ∈ [a] := by
      intro q hq hqa
      simp only [List.mem_singleton] at hqa
      subst hqa
      exact (List.nodup_cons.mp hnd).1 hq
    exact dfsAux_complete m f (dfsFuel m) cont a.x a.y [a] [a] hlen hch hnd hfresh hl

theorem dfs_sound_top (m : Maze) (s f : Pos) (r : List Pos)
    (h : r ∈ dfsAux m f (dfsFuel m) s.x s.y [s] [s]) : Reaches m s f := by
  obtain ⟨ext, hre, hrl, hrc⟩ := dfsAux_sound m f (dfsFuel m) s.x s.y [s] [s] r rfl h
  rw [hre] at hrl
  exact chain_reaches_aux m ext s f hrc hrl

theorem findLongestPath_none_iff (m : Maze) (s f : Pos) :
    findLongestPath s f m = none ↔ ¬ Reaches m s f := by
  constructor
  · intro h hreach
    rcases hfs : findShortestPath s f m with _ | p
    · exact (findShortestPath_none_iff m s f).mp hfs hreach
    · have hmem := shortest_mem_dfs m s f p hfs
      simp only [findLongestPath] at h
      rcases hall : dfsAux m f (dfsFuel m) s.x s.y [s] [s] with _ | ⟨r, rest⟩
      · rw [hall] at hmem
        simp at hmem
      · rw [hall] at h
        simp at h
  · intro hnr
    rcases hall : dfsAux m f (dfsFuel m) s.x s.y [s] [s] with _ | ⟨r, rest⟩
    · simp only [findLongestPath]
      rw [hall]
    · exact absurd (dfs_sound_top m s f r (by rw [hall]; exact List.mem_cons_self _ _)) hnr

/-! ## Claim C4 (confirmed): shortest vs longest path -/

/-- C4: for every maze, start and finish: whenever `findShortestPath`
and `findLongestPath` both return a path, the shortest path's length is
at most the longest path's length; the two functions return `null`
simultaneously; and they return `null` exactly when no 4-connected
open-cell path joins start to finish. -/
theorem c4_shortest_longest (m : Maze) (s f : Pos) :
    (∀ p q, findShortestPath s f m = some p → findLongestPath s f m = some q →
      p.length ≤ q.length) ∧
    (findShortestPath s f m = none ↔ findLongestPath s f m = none) ∧
    (findShortestPath s f m = none ↔ ¬ Reaches m s f) := by
  refine ⟨?_, ?_, findShortestPath_none_iff m s f⟩
  · intro p q hp hq
    have hmem := shortest_mem_dfs m s f p hp
    simp only [findLongestPath] at hq
    rcases hall : dfsAux m f (dfsFuel m) s.x s.y [s] [s] with _ | ⟨r, rest⟩
    · rw [hall] at hmem
      simp at hmem
    · rw [hall] at hmem hq
      simp only [Option.some.injEq] at hq
      subst hq
      exact (foldl_longest_spec rest r).2 p hmem
  · rw [findShortestPath_none_iff m s f, findLongestPath_none_iff m s f]

theorem c4_witness :
    findShortestPath ⟨1, 0⟩ ⟨2, 1⟩ m3 = some [⟨1, 0⟩, ⟨1, 1⟩, ⟨2, 1⟩] ∧
    findLongestPath ⟨1, 0⟩ ⟨2, 1⟩ m3 = some [⟨1, 0⟩, ⟨1, 1⟩, ⟨2, 1⟩] ∧
    ([⟨1, 0⟩, ⟨1, 1⟩, ⟨2, 1⟩] : List Pos).length ≤
      ([⟨1, 0⟩, ⟨1, 1⟩, ⟨2, 1⟩] : List Pos).length :=
  ⟨by decide, by decide,
    (c4_shortest_longest m3 ⟨1, 0⟩ ⟨2, 1⟩).1 _ _ (by decide) (by decide)⟩

/-! ## Claim C8 (confirmed): CheckMap applicability -/

/-- C8: the CheckMap applicability predicate (a total boolean function)
returns `true` iff the finish is set, `findShortestPath` to it returns a
path, and that path has length greater than 1; in particular when no
open-cell path to the finish exists it returns `false`. -/
theorem c8_checkmap_applicability (ctx : Ctx) (b : Block) (moves : List Move)
    (hb : b.type = BlockType.checkMap) :
    (isBlockApplicable b ctx moves = true ↔
      ∃ f p, ctx.finish = some f ∧
        findShortestPath ctx.currentPos f ctx.maze = some p ∧ 1 < p.length) ∧
    (∀ f, ctx.finish = some f → ¬ Reaches ctx.maze ctx.currentPos f →
      isBlockApplicable b ctx moves = false) := by
  constructor
  · simp only [isBlockApplicable, hb]
    rcases hf : ctx.finish with _ | f
    · simp
    · rcases hsp : findShortestPath ctx.currentPos f ctx.maze with _ | sp
      · simp only [hsp]
        constructor
        · intro h
          simp at h
        · rintro ⟨f', p, hf', hp, hl⟩
          rw [Option.some.injEq] at hf'
          subst hf'
          rw [hsp] at hp
          exact absurd hp (by simp)
      · simp only [hsp, decide_eq_true_eq]
        constructor
        · intro h
          exact ⟨f, sp, rfl, hsp, h⟩
        · rintro ⟨f', p, hf', hp, hl⟩
          rw [Option.some.injEq] at hf'
          subst hf'
          rw [hsp, Option.some.injEq] at hp
          subst hp
          exact hl
  · intro f hf hnr
    have hnone := (findShortestPath_none_iff ctx.maze ctx.currentPos f).mpr hnr
    simp only [isBlockApplicable, hb, hf, hnone]

theorem c8_witness :
    (⟨BlockType.checkMap, 1, none⟩ : Block).type = BlockType.checkMap ∧
    isBlockApplicable ⟨BlockType.checkMap, 1, none⟩ ctxC8 [⟨1, 1, Dir.right⟩] = true :=
  ⟨rfl, (c8_checkmap_applicability ctxC8 ⟨BlockType.checkMap, 1, none⟩
    [⟨1, 1, Dir.right⟩] rfl).1.mpr
    ⟨⟨2, 1⟩, [⟨0, 1⟩, ⟨1, 1⟩, ⟨2, 1⟩], rfl, by decide, by decide⟩⟩

end CornMaze
